import Mathlib

/-!
# pipe: depth pools, `Pipe`, `Dispatch` and `Wrap`

A verification development for the Go package `pipe` (`pool.go`, `processes.go`).

The package is built from goroutines, unbuffered channels, a `sync.WaitGroup` and the worker
pools of the `ants` library.  The embedding has two layers.

* The sequential code (`Validate`, `NewDispatch`, `NewPoolsWithOptions`, `Release`, `submit`,
  `AsPoolProcess`, `Link`) is translated to functions.  Effects on the pool library are made
  explicit in a `World` value that is passed along.
* The concurrent code (`Pipe`, `Wrap`) is translated to a transition system: a configuration
  records the program point of every goroutine, `step` fires one action of one goroutine (or
  one rendezvous of two), and `run` drives the system with an arbitrary scheduler.  Statements
  about `Pipe` and `Wrap` quantify over every scheduler.
-/

namespace pipe

/-! ## Go values: type names, errors, panics, outcomes -/

/-- The name `fmt` prints for the verb `%T` on a value of the type. For a type parameter
instantiated with a concrete (non-interface) type this is the static type name. -/
class TypeName (α : Type) where
  name : String

instance : TypeName Int := ⟨"int"⟩
instance : TypeName String := ⟨"string"⟩

/-- Go `error` values that occur in the package.
`sentinel` is a value built by `errors.New`; `wrapf` is the value built in `Validate` by
`fmt.Errorf("%w from %T to %T (nil fields method: %+v)", ...)`: it wraps `inner`, and the
remaining fields record what the format arguments print (the two type names, and which of the
two function fields print as nil); `ants` is an error value produced by the pool library;
`runtime` is the `runtime.Error` of a run-time panic, with its text. -/
inductive GoError where
  | sentinel (text : String)
  | wrapf (inner : GoError) (parent child : String) (splitNil mergeNil : Bool)
  | ants (code : Nat)
  | runtime (text : String)
  deriving DecidableEq, Repr

/-- `var ErrInvalidDispatcher = errors.New("invalid dispatcher")`. -/
def ErrInvalidDispatcher : GoError := .sentinel "invalid dispatcher"

/-- Error of `ants`: `Submit` on a released pool. -/
def ErrPoolClosed : GoError := .ants 0

/-- Error of `ants`: `Submit` on a saturated pool in non-blocking mode. -/
def ErrPoolOverload : GoError := .ants 1

/-- The value of the run-time panic raised by the use of a field of a nil pointer. -/
def nilDereference : GoError :=
  .runtime "runtime error: invalid memory address or nil pointer dereference"

/-- The test `errors.Is(err, target)`: `target` occurs on the unwrap chain of `err`. -/
def GoError.is : GoError → GoError → Bool
  | .wrapf inner parent child s m, target =>
      decide (GoError.wrapf inner parent child s m = target) || inner.is target
  | e, target => decide (e = target)

/-- The argument of a Go `panic`: `panic(err)` or `panic(fmt.Sprintf(...))`. -/
inductive PanicValue where
  | err (e : GoError)
  | msg (text : String)
  deriving DecidableEq, Repr

/-- How a call ends, seen from the goroutine that made it.
`returned v`: normal return. `panicked p`: the call panics in the calling goroutine.
`aborted p`: a panic that nobody recovers was raised in another goroutine, which terminates
the program. `blocked`: the call never returns. -/
inductive Outcome (T : Type) where
  | returned (v : T)
  | panicked (p : PanicValue)
  | aborted (p : PanicValue)
  | blocked
  deriving DecidableEq, Repr

/-- Sequencing of two calls in one goroutine: the second runs only if the first returned. -/
def Outcome.andThen {A B : Type} : Outcome A → (A → Outcome B) → Outcome B
  | .returned v, k => k v
  | .panicked p, _ => .panicked p
  | .aborted p, _ => .aborted p
  | .blocked, _ => .blocked

/-! ## Pools (`pool.go`) -/

/-- An `*ants.Pool`. The library is a dependency of the package; the fields are what `Pipe`
can observe of it: `cap` workers at most run tasks at the same time, `closed` is set once the
pool was released, `nonblocking` is the library option of that name. -/
structure Pool where
  id : Nat
  cap : Nat
  closed : Bool
  nonblocking : Bool
  deriving DecidableEq, Repr

/-- `type Pools struct { pools []*ants.Pool }`; a `nil` entry of the slice is `none`. -/
structure Pools where
  pools : List (Option Pool)
  deriving DecidableEq, Repr

/-- A `*Pools`, which may be `nil`. -/
abbrev PoolsPtr := Option Pools

/-- What the caller of `ants.Pool.Submit` observes when `busy` workers of the pool are running
a task: the task is taken by a worker, the call blocks until a worker is free, or the call
returns an error. -/
inductive SubmitReply where
  | accepted
  | wait
  | refused (e : GoError)
  deriving DecidableEq, Repr

/-- The contract of `ants.Pool.Submit` with `busy` running workers. -/
def Pool.Submit (pl : Pool) (busy : Nat) : SubmitReply :=
  if pl.closed then .refused ErrPoolClosed
  else if busy < pl.cap then .accepted
  else if pl.nonblocking then .refused ErrPoolOverload
  else .wait

/-- Where `submit` runs the task `f`, and with which argument. -/
inductive Submission where
  | inline (arg : PoolsPtr)
  | pooled (pool : Pool) (arg : PoolsPtr)
  deriving DecidableEq, Repr

/-- The result of `submit`: what it does with the task and the receiver after the call. -/
structure Submitted where
  how : Submission
  receiver : PoolsPtr
  deriving DecidableEq, Repr

/-- `func (p *Pools) submit(f func(*Pools))`, up to the call of `f` or of `Submit`. -/
def submit (p : PoolsPtr) : Submitted :=
  match p with
  | none => ⟨.inline p, p⟩
  | some ps =>
    match ps.pools with
    | [] => ⟨.inline p, p⟩
    | currentPool :: rest =>
      let childrenPools : PoolsPtr := some ⟨rest⟩
      match currentPool with
      | none => ⟨.inline childrenPools, p⟩
      | some pool => ⟨.pooled pool childrenPools, p⟩

/-- The calls made to the pool library: the sizes passed to `ants.NewPool`, and the pools on
which `Release` was called, both in call order. -/
structure World where
  created : List Int
  released : List Pool
  deriving DecidableEq, Repr

/-- The function `ants.NewPool(size, opts...)`: the first argument is the number of calls made
before this one, so that two calls may answer differently. -/
abbrev NewPoolFn (Opts : Type) := Nat → Int → Opts → Except GoError Pool

/-- `func (p *Pools) Release()` on a receiver that is not nil: the loop over `p.pools`. -/
def Pools.Release (p : Pools) (w : World) : World :=
  p.pools.foldl
    (fun w entry =>
      match entry with
      | none => w
      | some pool => { w with released := w.released ++ [pool] })
    w

/-- What a call of `Release` did: how it ended, the world after it, and the receiver after
it. -/
structure Released where
  outcome : Outcome Unit
  world : World
  receiver : PoolsPtr
  deriving DecidableEq, Repr

/-- `func (p *Pools) Release()`: `range p.pools` reads a field of the receiver, which panics
when the receiver is nil; otherwise the loop runs. The loop calls `Release` on the pools, which
the world records, and does not write `p.pools`. -/
def Release (p : PoolsPtr) (w : World) : Released :=
  match p with
  | none => ⟨.panicked (.err nilDereference), w, p⟩
  | some ps => ⟨.returned (), ps.Release w, p⟩

set_option linter.dupNamespace false in
/-- `func (p *Pools) Pools() []*ants.Pool` of `export_test.go`; the nil slice is the empty
list. -/
def Pools.Pools (p : PoolsPtr) : List (Option Pool) :=
  match p with
  | none => []
  | some ps => ps.pools

/-- The variables the callback of `NewPoolsWithOptions` works on: the captured `err`, the
world, and the slice `lo.FilterMap` has built so far. -/
structure BuildState where
  err : Option GoError
  world : World
  result : List (Option Pool)
  deriving DecidableEq, Repr

/-- One iteration of `lo.FilterMap(poolSizes, callback)`: the callback on `size`, then the
append if it answered `ok`. -/
def buildStep {Opts : Type} (newPool : NewPoolFn Opts) (opts : Opts) (st : BuildState)
    (size : Int) : BuildState :=
  match st.err with
  | some _ => st
  | none =>
    if size ≠ 0 then
      match newPool st.world.created.length size opts with
      | .ok pool =>
          { st with world := { st.world with created := st.world.created ++ [size] },
                    result := st.result ++ [some pool] }
      | .error e =>
          { st with world := { st.world with created := st.world.created ++ [size] },
                    err := some e }
    else
      { st with result := st.result ++ [none] }

/-- What `NewPoolsWithOptions` returns, and the world after the call. -/
structure NewPoolsResult where
  pools : PoolsPtr
  err : Option GoError
  world : World
  deriving DecidableEq, Repr

/-- `func NewPoolsWithOptions(poolSizes []int, opts ...ants.Option) (*Pools, error)`. -/
def NewPoolsWithOptions {Opts : Type} (newPool : NewPoolFn Opts) (poolSizes : List Int)
    (opts : Opts) (w : World) : NewPoolsResult :=
  let st := poolSizes.foldl (buildStep newPool opts) ⟨none, w, []⟩
  let result : Pools := ⟨st.result⟩
  match st.err with
  | some err => ⟨none, some err, result.Release st.world⟩
  | none => ⟨some result, none, st.world⟩

/-- The pools `ants.NewPool` returns for the calls number `k`, `k + 1`, ... made with the
sizes `nz`, in order; a failing call contributes nothing. -/
def poolsOfCalls {Opts : Type} (newPool : NewPoolFn Opts) (opts : Opts) :
    Nat → List Int → List Pool
  | _, [] => []
  | k, s :: rest =>
      match newPool k s opts with
      | .ok pool => pool :: poolsOfCalls newPool opts (k + 1) rest
      | .error _ => poolsOfCalls newPool opts (k + 1) rest

/-- `func NewPools(poolSizes ...int) (*Pools, error)`: `NewPoolsWithOptions` with no option. -/
def NewPools {Opt : Type} (newPool : NewPoolFn (List Opt)) (poolSizes : List Int)
    (w : World) : NewPoolsResult :=
  NewPoolsWithOptions newPool poolSizes [] w

/-! ## Dispatch (`processes.go`) -/

/-- `type Process[T any] func(T) T`. -/
abbrev Process (T : Type) := T → T

/-- `type PoolProcess[T any] func(*Pools, T) T`; the call may also not return. -/
abbrev PoolProcess (T : Type) := PoolsPtr → T → Outcome T

/-- `type Split[Parent, Child any] func(parent Parent, in chan<- Child)`.
A split can only send on its endpoint, so it is given by the children it sends, in order,
before it returns. -/
abbrev Split (Parent Child : Type) := Parent → List Child

/-- `type Merge[Parent, Child any] func(parent Parent, out <-chan Child) Parent`.
A merge can only receive from its endpoint, so it is given by its decisions:
`next parent got` is asked after the values `got` were received, and answers `some result`
when the merge returns `result` without another receive, `none` when it receives again;
`atEnd parent got` is the value it returns when that receive reports the end of the stream. -/
structure Merge (Parent Child : Type) where
  next : Parent → List Child → Option Parent
  atEnd : Parent → List Child → Parent

/-- `type Dispatch[Parent, Child any] struct { split; merge }`; a nil func is `none`. -/
structure Dispatch (Parent Child : Type) where
  split : Option (Split Parent Child)
  merge : Option (Merge Parent Child)

/-- `func (d Dispatch[Parent, Child]) Validate() error`. -/
def Dispatch.Validate {Parent Child : Type} [TypeName Parent] [TypeName Child]
    (d : Dispatch Parent Child) : Option GoError :=
  if d.merge.isNone || d.split.isNone then
    some (.wrapf ErrInvalidDispatcher (TypeName.name Parent) (TypeName.name Child)
      d.split.isNone d.merge.isNone)
  else
    none

/-- `func NewDispatch(split, merge) (Dispatch[Parent, Child], error)`. -/
def NewDispatch {Parent Child : Type} [TypeName Parent] [TypeName Child]
    (split : Option (Split Parent Child)) (merge : Option (Merge Parent Child)) :
    Dispatch Parent Child × Option GoError :=
  let result : Dispatch Parent Child := ⟨split, merge⟩
  (result, result.Validate)

/-- `func AsPoolProcess[T any](proc Process[T]) PoolProcess[T]`. -/
def AsPoolProcess {T : Type} (proc : Process T) : PoolProcess T :=
  fun _ t => .returned (proc t)

/-- `func AsPoolProcesses[T any](procs ...Process[T]) []PoolProcess[T]`. -/
def AsPoolProcesses {T : Type} (procs : List (Process T)) : List (PoolProcess T) :=
  procs.map AsPoolProcess

/-- `func Link[T any](procs ...PoolProcess[T]) PoolProcess[T]`: `lo.Reduce` over `procs`. -/
def Link {T : Type} (procs : List (PoolProcess T)) : PoolProcess T :=
  fun pool t => procs.foldl (fun val proc => val.andThen (proc pool)) (.returned t)

/-! ## `Pipe` as a transition system (`pool.go`)

The goroutines of one call `Pipe(dp, in, do)`:

* the producer of `in`, which sends the items of a list one by one and then closes `in`
  (in `Wrap` this is the goroutine that runs `split` and then the deferred `close(in)`);
* the coordinator, the goroutine started by `Pipe`;
* the busy workers of the pool `dp.pools[0]`, each running one task handed over by `submit`;
* the reader of `out`.

Both channels are unbuffered: a send and the matching receive are one joint action. -/

/-- Program point of the coordinator goroutine of `Pipe`. -/
inductive Coord (IN OUT : Type) where
  /-- At `for dispatch := range in`, about to receive. -/
  | ranging
  /-- `wg.Add(1)` done, inside `dp.submit` with the task for `v`. -/
  | submitting (v : IN)
  /-- The task runs in the coordinator and is at `out <- r`. -/
  | sending (r : OUT)
  /-- The task runs in the coordinator, its send is done, `defer wg.Done()` is due. -/
  | deferred
  /-- At `wg.Wait()`. -/
  | waiting
  /-- After `close(out)`: the goroutine has ended. -/
  | finished
  /-- The goroutine panicked; nothing recovers it, the program terminates. -/
  | crashed (p : PanicValue)
  /-- The task runs in the coordinator and never returns. -/
  | stuck
  deriving DecidableEq, Repr

/-- Program point of a busy worker of the pool, running `func() { f(childrenPools) }`. -/
inductive Worker (OUT : Type) where
  /-- At `out <- r`. -/
  | sending (r : OUT)
  /-- The send is done, or the task panicked and the worker recovered it: `defer wg.Done()`
  and the return of the worker to the pool are due. -/
  | deferred
  /-- The task never returns. -/
  | stuck
  deriving DecidableEq, Repr

/-- A configuration of one `Pipe` call with its producer and its reader.
`src`: the items the producer has still to send; `inClosed`: `close(in)` was run;
`wg`: the counter of the `sync.WaitGroup`; `workers`: the busy workers of `dp.pools[0]`, in
the order in which they took their task; `outLog`: the values received from `out` so far;
`outCloses`: how many times `close(out)` was run; `rd`: the state of the reader;
`log`: for every task that was started, how `submit` ran it. -/
structure Cfg (IN OUT ρ : Type) where
  src : List IN
  inClosed : Bool
  coord : Coord IN OUT
  wg : Nat
  workers : List (Worker OUT)
  outLog : List OUT
  outCloses : Nat
  rd : ρ
  log : List Submission

/-- The actions of the system; a scheduler chooses among the enabled ones.
`feed`: the producer sends on `in` and the coordinator receives; `closeIn`: the producer runs
`close(in)`; `coord`: the coordinator moves on its own; `workerDone i`: worker `i` runs its
deferred `wg.Done()` and returns to the pool; `recvCoord`, `recvWorker i`: the reader receives
the value the coordinator, or worker `i`, sends on `out`; `recvClosed`: the reader's receive
returns because `out` is closed. -/
inductive Act where
  | feed
  | closeIn
  | coord
  | workerDone (i : Nat)
  | recvCoord
  | recvWorker (i : Nat)
  | recvClosed
  deriving DecidableEq, Repr

/-- A reader of `out`, given by what it does in state `s`: `none` when it no longer receives,
`some k` when it is at a receive and continues in state `k (some v)` after the value `v`, in
`k none` after the end of the stream. -/
abbrev Reader (OUT ρ : Type) := ρ → Option (Option OUT → ρ)

/-- The program has terminated because the coordinator panicked. -/
def Cfg.dead {IN OUT ρ : Type} (c : Cfg IN OUT ρ) : Bool :=
  match c.coord with
  | .crashed _ => true
  | _ => false

/-- The coordinator's own moves: the body of the goroutine in `Pipe`, with `dp.submit` and
the task `func(dp *Pools) { defer wg.Done(); out <- do(dp, value) }` unfolded. -/
def coordStep {IN OUT ρ : Type} (dp : PoolsPtr) (doF : PoolsPtr → IN → Outcome OUT)
    (c : Cfg IN OUT ρ) : Option (Cfg IN OUT ρ) :=
  match c.coord with
  | .ranging =>
      -- the receive from `in` reports that the channel is closed: the loop ends
      if c.inClosed && c.src.isEmpty then some { c with coord := .waiting } else none
  | .submitting v =>
      match (submit dp).how with
      | .inline arg =>
          match doF arg v with
          | .returned r => some { c with coord := .sending r, log := c.log ++ [.inline arg] }
          | .panicked p => some { c with coord := .crashed p, log := c.log ++ [.inline arg] }
          | .aborted p => some { c with coord := .crashed p, log := c.log ++ [.inline arg] }
          | .blocked => some { c with coord := .stuck, log := c.log ++ [.inline arg] }
      | .pooled pool arg =>
          match pool.Submit c.workers.length with
          | .refused e => some { c with coord := .crashed (.err e) }
          | .wait => none
          | .accepted =>
              match doF arg v with
              | .returned r =>
                  some { c with coord := .ranging, workers := c.workers ++ [.sending r],
                                log := c.log ++ [.pooled pool arg] }
              | .panicked _ =>
                  some { c with coord := .ranging, workers := c.workers ++ [.deferred],
                                log := c.log ++ [.pooled pool arg] }
              | .aborted p =>
                  some { c with coord := .crashed p, log := c.log ++ [.pooled pool arg] }
              | .blocked =>
                  some { c with coord := .ranging, workers := c.workers ++ [.stuck],
                                log := c.log ++ [.pooled pool arg] }
  | .deferred => some { c with coord := .ranging, wg := c.wg - 1 }
  | .waiting =>
      if c.wg = 0 then some { c with coord := .finished, outCloses := c.outCloses + 1 }
      else none
  | .sending _ => none
  | .finished => none
  | .crashed _ => none
  | .stuck => none

/-- One action of the system; `none` when the action is not enabled. -/
def step {IN OUT ρ : Type} (dp : PoolsPtr) (doF : PoolsPtr → IN → Outcome OUT)
    (rk : Reader OUT ρ) (c : Cfg IN OUT ρ) (a : Act) : Option (Cfg IN OUT ρ) :=
  if c.dead then none
  else
    match a with
    | .feed =>
        match c.coord, c.src with
        | .ranging, v :: rest =>
            some { c with src := rest, coord := .submitting v, wg := c.wg + 1 }
        | _, _ => none
    | .closeIn =>
        if c.src.isEmpty && !c.inClosed then some { c with inClosed := true } else none
    | .coord => coordStep dp doF c
    | .workerDone i =>
        match c.workers.get? i with
        | some .deferred => some { c with workers := c.workers.eraseIdx i, wg := c.wg - 1 }
        | _ => none
    | .recvCoord =>
        match rk c.rd, c.coord with
        | some k, .sending r =>
            some { c with coord := .deferred, outLog := c.outLog ++ [r], rd := k (some r) }
        | _, _ => none
    | .recvWorker i =>
        match rk c.rd, c.workers.get? i with
        | some k, some (.sending r) =>
            some { c with workers := c.workers.set i .deferred, outLog := c.outLog ++ [r],
                          rd := k (some r) }
        | _, _ => none
    | .recvClosed =>
        match rk c.rd with
        | some k => if 0 < c.outCloses then some { c with rd := k none } else none
        | none => none

/-- Every action that can be enabled in `c`. -/
def candidates {IN OUT ρ : Type} (c : Cfg IN OUT ρ) : List Act :=
  [.feed, .closeIn, .coord, .recvCoord, .recvClosed] ++
    (List.range c.workers.length).flatMap (fun i => [.workerDone i, .recvWorker i])

/-- The actions enabled in `c`. Once the reader no longer receives the run is over. -/
def enabled {IN OUT ρ : Type} (dp : PoolsPtr) (doF : PoolsPtr → IN → Outcome OUT)
    (rk : Reader OUT ρ) (c : Cfg IN OUT ρ) : List Act :=
  if (rk c.rd).isNone then []
  else (candidates c).filter (fun a => (step dp doF rk c a).isSome)

/-- A scheduler: with `n` steps of fuel left and `k` enabled actions it fires the action
number `pick n % k`. -/
abbrev Sched := Nat → Nat

/-- Runs the system under the scheduler `pick` until no action is enabled, for at most `fuel`
steps. -/
def run {IN OUT ρ : Type} (dp : PoolsPtr) (doF : PoolsPtr → IN → Outcome OUT)
    (rk : Reader OUT ρ) (pick : Sched) : Nat → Cfg IN OUT ρ → Cfg IN OUT ρ
  | 0, c => c
  | n + 1, c =>
      match enabled dp doF rk c with
      | [] => c
      | a :: as =>
          match step dp doF rk c ((a :: as).getD (pick n % (a :: as).length) a) with
          | some c' => run dp doF rk pick n c'
          | none => c

/-- The configuration right after `Pipe(dp, in, do)` returned `out`: `make(chan OUT)` and the
`go` statement were run, the producer holds `input`, the reader is in state `rd`. -/
def Pipe {IN OUT ρ : Type} (input : List IN) (rd : ρ) : Cfg IN OUT ρ :=
  { src := input, inClosed := false, coord := .ranging, wg := 0, workers := [],
    outLog := [], outCloses := 0, rd := rd, log := [] }

/-- A number of steps after which no run from `Pipe input rd` has an enabled action, when the
reader makes at most `readerFuel` receives that report the end of the stream. -/
def pipeFuel (items readerFuel : Nat) : Nat := 4 * items + 3 + readerFuel

/-- The reader `lo.ChannelToSlice(out)`: it receives until `out` is closed. The state is
`true` once it has returned; the slice it returns is the `outLog` of the configuration. -/
def sliceReader {OUT : Type} : Reader OUT Bool
  | false => some (fun o => o.isNone)
  | true => none

/-- `lo.ChannelToSlice(Pipe(dp, lo.SliceToChannel(0, input), do))` under the scheduler `pick`:
the slice, or `none` when the reader never returns. -/
def PipeToSlice {IN OUT : Type} (dp : PoolsPtr) (input : List IN)
    (doF : PoolsPtr → IN → Outcome OUT) (pick : Sched) : Option (List OUT) :=
  let c := run dp doF sliceReader pick (pipeFuel input.length 1) (Pipe input false)
  if c.rd then some c.outLog else none

/-! ## `Wrap` (`processes.go`) -/

/-- The panic message of `Wrap`:
`fmt.Sprintf("invalid dispatcher merge %T into %T, leaked goroutine", val, result)`. -/
def leakMessage (Parent Child : Type) [TypeName Parent] [TypeName Child] : String :=
  "invalid dispatcher merge " ++ TypeName.name Child ++ " into " ++ TypeName.name Parent ++
    ", leaked goroutine"

/-- Program point of the goroutine that called the wrapped process, from the call of
`dispatch.merge(p, out)` on. -/
inductive WrapReader (Parent Child : Type) where
  /-- Inside `merge`, which has received `got`. -/
  | merging (got : List Child)
  /-- `merge` returned `result` after a receive that reported the end of the stream;
  at `if val, ok := <-out; ok`. -/
  | checking (result : Parent)
  /-- The wrapped process has returned or panicked. -/
  | done (o : Outcome Parent)
  deriving DecidableEq, Repr

/-- The receive `val, ok := <-out` after `merge` returned `result`. -/
def leakCheck {Parent Child : Type} [TypeName Parent] [TypeName Child] (result : Parent) :
    Option Child → WrapReader Parent Child
  | some _ => .done (.panicked (.msg (leakMessage Parent Child)))
  | none => .done (.returned result)

/-- The reader of `out` in `Wrap`: `result := dispatch.merge(p, out)`, then the check that
`out` is closed. -/
def wrapReader {Parent Child : Type} [TypeName Parent] [TypeName Child]
    (merge : Merge Parent Child) (p : Parent) : Reader Child (WrapReader Parent Child)
  | .merging got =>
      match merge.next p got with
      | some result => some (leakCheck result)
      | none =>
          some (fun o =>
            match o with
            | some v => .merging (got ++ [v])
            | none => .checking (merge.atEnd p got))
  | .checking result => some (leakCheck result)
  | .done _ => none

/-- How the call of the wrapped process ends in the final configuration of a run. -/
def wrapOutcome {Parent Child : Type} (c : Cfg Child Child (WrapReader Parent Child)) :
    Outcome Parent :=
  match c.rd with
  | .done o => o
  | _ =>
      match c.coord with
      | .crashed p => .aborted p
      | _ => .blocked

/-- What one call of a wrapped process did: how it ended, how many channels it made, how many
times it called `split`, `merge` and the child process. -/
structure WrapRun (Parent : Type) where
  outcome : Outcome Parent
  streams : Nat
  splitCalls : Nat
  mergeCalls : Nat
  childCalls : Nat
  deriving DecidableEq, Repr

/-- The body of the process `Wrap(procs, dispatch)` on `(pool, p)`, under the scheduler
`pick`. -/
def WrapCall {Parent Child : Type} [TypeName Parent] [TypeName Child]
    (procs : PoolProcess Child) (dispatch : Dispatch Parent Child) (pick : Sched)
    (pool : PoolsPtr) (p : Parent) : WrapRun Parent :=
  match dispatch.Validate with
  | some err => ⟨.panicked (.err err), 0, 0, 0, 0⟩
  | none =>
      match dispatch.split, dispatch.merge with
      | some split, some merge =>
          -- in := make(chan Child); out := Pipe(pool, in, procs); go split; merge(p, out)
          let children := split p
          let c := run pool procs (wrapReader merge p) pick (pipeFuel children.length 2)
            (Pipe children (.merging []))
          ⟨wrapOutcome c, 2, 1, 1, c.log.length⟩
      | _, _ =>
          -- not reached: `Validate` answers an error when a field is nil
          ⟨.aborted (.msg "nil func call"), 1, 0, 0, 0⟩

/-- `func Wrap[Parent, Child any](procs PoolProcess[Child], dispatch Dispatch[Parent, Child])
PoolProcess[Parent]`, under the scheduler `pick`. -/
def Wrap {Parent Child : Type} [TypeName Parent] [TypeName Child]
    (procs : PoolProcess Child) (dispatch : Dispatch Parent Child) (pick : Sched) :
    PoolProcess Parent :=
  fun pool p => (WrapCall procs dispatch pick pool p).outcome

/-! ## Measures and invariants of the transition system -/

/-- Steps the coordinator has still to make from its program point for the item it holds and
to end the loop. -/
def Coord.weight {IN OUT : Type} : Coord IN OUT → Nat
  | .ranging => 2
  | .submitting _ => 5
  | .sending _ => 4
  | .deferred => 3
  | .waiting => 1
  | .finished => 0
  | .crashed _ => 0
  | .stuck => 0

/-- Steps a worker has still to make. -/
def Worker.weight {OUT : Type} : Worker OUT → Nat
  | .sending _ => 2
  | .deferred => 1
  | .stuck => 0

/-- A bound on the number of steps of any run from `c`, for a reader whose state has rank
`rank`. -/
def Cfg.measure {IN OUT ρ : Type} (rank : ρ → Nat) (c : Cfg IN OUT ρ) : Nat :=
  4 * c.src.length + (if c.inClosed then 0 else 1) + c.coord.weight +
    (c.workers.map Worker.weight).sum + rank c.rd

/-- The rank of a reader state bounds the receives that report the end of the stream: such a
receive lowers the rank, a receive of a value does not raise it. -/
structure Ranked {OUT ρ : Type} (rk : Reader OUT ρ) (rank : ρ → Nat) : Prop where
  value : ∀ s k v, rk s = some k → rank (k (some v)) ≤ rank s
  closed : ∀ s k, rk s = some k → rank (k none) < rank s

/-- Rank of the states of `sliceReader`. -/
def sliceRank : Bool → Nat
  | false => 1
  | true => 0

/-- Rank of the states of `wrapReader`. -/
def wrapRank {Parent Child : Type} : WrapReader Parent Child → Nat
  | .merging _ => 2
  | .checking _ => 1
  | .done _ => 0

/-- The value a worker is about to send. -/
def Worker.out {OUT : Type} : Worker OUT → Option OUT
  | .sending r => some r
  | _ => none

/-- The values the workers are about to send, oldest task first. -/
def sendingOf {OUT : Type} (ws : List (Worker OUT)) : List OUT := ws.filterMap Worker.out

/-- The result of the item the coordinator holds and has not yet sent, when the task
computes `g`. -/
def Coord.pending {IN OUT : Type} (g : IN → OUT) : Coord IN OUT → List OUT
  | .submitting v => [g v]
  | .sending r => [r]
  | _ => []

/-- The coordinator holds a unit of the wait group: between `wg.Add(1)` and the end of
`submit`, when the task runs in the coordinator. -/
def Coord.holds {IN OUT : Type} : Coord IN OUT → Nat
  | .submitting _ => 1
  | .sending _ => 1
  | .deferred => 1
  | _ => 0

/-- The coordinator holds an item whose task has not started. -/
def Coord.queued {IN OUT : Type} : Coord IN OUT → Nat
  | .submitting _ => 1
  | _ => 0

/-- The coordinator has left the loop over `in`. -/
def Coord.late {IN OUT : Type} : Coord IN OUT → Bool
  | .waiting => true
  | .finished => true
  | _ => false

/-- How many times the coordinator has run `close(out)`. -/
def Coord.closes {IN OUT : Type} : Coord IN OUT → Nat
  | .finished => 1
  | _ => 0

/-- The coordinator has not failed. -/
def Coord.healthy {IN OUT : Type} : Coord IN OUT → Bool
  | .crashed _ => false
  | .stuck => false
  | _ => true

/-- The results not yet received by the reader, in the order in which their tasks were
submitted, followed by those of the items not yet sent by the producer. -/
def Cfg.ahead {IN OUT ρ : Type} (g : IN → OUT) (c : Cfg IN OUT ρ) : List OUT :=
  sendingOf c.workers ++ c.coord.pending g ++ c.src.map g

/-- The stack and the task are usable: the task run by `submit dp` returns `g v` on every
item `v`, and a head pool is not released, blocks on saturation and has a worker. -/
structure Usable {IN OUT : Type} (dp : PoolsPtr) (doF : PoolsPtr → IN → Outcome OUT)
    (g : IN → OUT) : Prop where
  inline : ∀ arg, (submit dp).how = .inline arg → ∀ v, doF arg v = .returned (g v)
  pooled : ∀ pool arg, (submit dp).how = .pooled pool arg →
    (∀ v, doF arg v = .returned (g v)) ∧ pool.closed = false ∧ pool.nonblocking = false ∧
      0 < pool.cap

/-- The head of the stack is serial: tasks run in the coordinator, or in a pool of capacity
at most 1. -/
def Serial (dp : PoolsPtr) : Prop :=
  ∀ pool arg, (submit dp).how = .pooled pool arg → pool.cap ≤ 1

/-- The invariant of every run of `Pipe` on `input` with a usable stack and task. -/
structure Inv {IN OUT ρ : Type} (dp : PoolsPtr) (g : IN → OUT) (input : List IN)
    (c : Cfg IN OUT ρ) : Prop where
  /-- No result is lost or duplicated. -/
  conserve : (c.outLog ++ c.ahead g).Perm (input.map g)
  /-- The wait group counts the tasks that have not run `wg.Done()`. -/
  wg_eq : c.wg = c.workers.length + c.coord.holds
  healthy : c.coord.healthy = true
  workers_ok : ∀ w ∈ c.workers, w ≠ Worker.stuck
  /-- `close(out)` was run once the coordinator has finished, and not before. -/
  closes : c.outCloses = c.coord.closes
  /-- After the loop the input is closed and used up. -/
  late : c.coord.late = true → c.inClosed = true ∧ c.src = []
  /-- When `out` is closed no worker is busy. -/
  quiet : c.coord = .finished → c.workers = []
  /-- Every task was run the way `submit` says. -/
  log_how : ∀ e ∈ c.log, e = (submit dp).how
  /-- When `submit` runs the tasks in the coordinator no worker is busy. -/
  idle : ∀ arg, (submit dp).how = .inline arg → c.workers = []
  /-- The coordinator sends on `out` only when `submit` runs the tasks in the coordinator. -/
  inline_send : ∀ r, c.coord = .sending r → ∃ arg, (submit dp).how = .inline arg
  /-- Every item is in the input channel, in the hands of the coordinator, or has a task that
  was started. -/
  log_len : c.log.length + c.coord.queued + c.src.length = input.length

/-- The invariant of the runs on a serial stack: the results come in the order of the
input. -/
structure Ordered {IN OUT ρ : Type} (g : IN → OUT) (input : List IN)
    (c : Cfg IN OUT ρ) : Prop where
  order : c.outLog ++ c.ahead g = input.map g
  single : c.workers.length ≤ 1

/-- The transitions of the system when the stack and the task are usable: `step` without the
branches in which a task or `Submit` fails. -/
inductive Trans {IN OUT ρ : Type} (dp : PoolsPtr) (g : IN → OUT) (rk : Reader OUT ρ)
    (c : Cfg IN OUT ρ) : Cfg IN OUT ρ → Prop
  | feed (v : IN) (rest : List IN) : c.coord = .ranging → c.src = v :: rest →
      Trans dp g rk c { c with src := rest, coord := .submitting v, wg := c.wg + 1 }
  | closeIn : c.src = [] → c.inClosed = false →
      Trans dp g rk c { c with inClosed := true }
  | endRange : c.coord = .ranging → c.inClosed = true → c.src = [] →
      Trans dp g rk c { c with coord := .waiting }
  | inlineRun (v : IN) (arg : PoolsPtr) : c.coord = .submitting v →
      (submit dp).how = .inline arg →
      Trans dp g rk c { c with coord := .sending (g v), log := c.log ++ [.inline arg] }
  | handOver (v : IN) (pool : Pool) (arg : PoolsPtr) : c.coord = .submitting v →
      (submit dp).how = .pooled pool arg → c.workers.length < pool.cap →
      Trans dp g rk c { c with coord := .ranging, workers := c.workers ++ [.sending (g v)],
                               log := c.log ++ [.pooled pool arg] }
  | coordDone : c.coord = .deferred →
      Trans dp g rk c { c with coord := .ranging, wg := c.wg - 1 }
  | close : c.coord = .waiting → c.wg = 0 →
      Trans dp g rk c { c with coord := .finished, outCloses := c.outCloses + 1 }
  | workerDone (i : Nat) : c.workers.get? i = some .deferred →
      Trans dp g rk c { c with workers := c.workers.eraseIdx i, wg := c.wg - 1 }
  | recvCoord (k : Option OUT → ρ) (r : OUT) : rk c.rd = some k → c.coord = .sending r →
      Trans dp g rk c { c with coord := .deferred, outLog := c.outLog ++ [r],
                               rd := k (some r) }
  | recvWorker (k : Option OUT → ρ) (i : Nat) (r : OUT) : rk c.rd = some k →
      c.workers.get? i = some (.sending r) →
      Trans dp g rk c { c with workers := c.workers.set i .deferred,
                               outLog := c.outLog ++ [r], rd := k (some r) }
  | recvClosed (k : Option OUT → ρ) : rk c.rd = some k → 0 < c.outCloses →
      Trans dp g rk c { c with rd := k none }

/-- The stack a task submitted on `dp` receives: `dp` without its first level, and `dp` itself
when it is nil or empty. -/
def tailOf (dp : PoolsPtr) : PoolsPtr :=
  match dp with
  | none => none
  | some ps =>
    match ps.pools with
    | [] => dp
    | _ :: rest => some ⟨rest⟩

/-- A process that returns the value of a function. -/
def pureTask {IN OUT : Type} (f : PoolsPtr → IN → OUT) : PoolsPtr → IN → Outcome OUT :=
  fun tail x => .returned (f tail x)

/-- The head pool of the stack, when the stack has a first level that is not a
pass-through marker. -/
def headPool (dp : PoolsPtr) : Option Pool :=
  match dp with
  | none => none
  | some ps =>
    match ps.pools with
    | some pool :: _ => some pool
    | _ => none

/-- The invariant of the reader `lo.ChannelToSlice`: it has returned only after `close(out)`. -/
def SliceDone {IN OUT : Type} (c : Cfg IN OUT Bool) : Prop :=
  c.rd = true → c.coord = .finished

/-- What the code of `Wrap` after the call of `Pipe` does when the merge has received `got`
and the further results arrive on `out` in the order `rest`: the merge receives until it
returns or the stream ends; if a result is left when the merge has returned, the check after
the merge receives it and panics. -/
def wrapSpec {Parent Child : Type} [TypeName Parent] [TypeName Child]
    (merge : Merge Parent Child) (p : Parent) : List Child → List Child → Outcome Parent
  | got, [] =>
      match merge.next p got with
      | some result => .returned result
      | none => .returned (merge.atEnd p got)
  | got, x :: rest =>
      match merge.next p got with
      | some _ => .panicked (.msg (leakMessage Parent Child))
      | none => wrapSpec merge p (got ++ [x]) rest

/-- The invariant of the reader of `Wrap`, for the reader state `rd`, the values `log`
received from `out` and `fin`, which says that the coordinator has finished. -/
def WrapOK {Parent Child : Type} [TypeName Parent] [TypeName Child]
    (merge : Merge Parent Child) (p : Parent) (rd : WrapReader Parent Child)
    (log : List Child) (fin : Prop) : Prop :=
  match rd with
  | .merging got =>
      got = log ∧ ∀ rest, wrapSpec merge p [] (log ++ rest) = wrapSpec merge p log rest
  | .checking result => fin ∧ wrapSpec merge p [] log = .returned result
  | .done o =>
      (fin ∧ wrapSpec merge p [] log = o) ∨ ∀ rest, wrapSpec merge p [] (log ++ rest) = o

/-- The invariant of the reader of `Wrap` in a configuration. -/
def WrapInv {Parent Child : Type} [TypeName Parent] [TypeName Child]
    (merge : Merge Parent Child) (p : Parent)
    (c : Cfg Child Child (WrapReader Parent Child)) : Prop :=
  WrapOK merge p c.rd c.outLog (c.coord = .finished)

/-- The helper `identity` of the tests: `func identity[T any](p *pipe.Pools, b T) T`. -/
def identity {T : Type} : PoolProcess T := fun _ b => .returned b

/-- A wrapped process that has ended did so by a normal return or by the panic of the leak
check. -/
def EndsByCheck {Parent Child : Type} [TypeName Parent] [TypeName Child]
    (rd : WrapReader Parent Child) : Prop :=
  ∀ o, rd = .done o → (∃ r, o = .returned r) ∨ o = .panicked (.msg (leakMessage Parent Child))

/-- A stack without any pool: absent, empty, or made of pass-through markers only. -/
def Passive (dp : PoolsPtr) : Prop :=
  ∀ ps, dp = some ps → ∀ e ∈ ps.pools, e = none

/-- The processes built from lifted processes with `Link` and with `Wrap` around a valid
dispatch whose merge receives until the end of the stream. -/
inductive Composed : {T : Type} → PoolProcess T → Prop
  | leaf {T : Type} (f : Process T) : Composed (AsPoolProcess f)
  | link {T : Type} (procs : List (PoolProcess T)) :
      (∀ q, q ∈ procs → Composed q) → Composed (Link procs)
  | wrap {Parent Child : Type} [TypeName Parent] [TypeName Child]
      (child : PoolProcess Child) (d : Dispatch Parent Child) (split : Split Parent Child)
      (merge : Merge Parent Child) (pick : Sched) :
      Composed child → d.split = some split → d.merge = some merge →
      (∀ p got, merge.next p got = none) → Composed (Wrap child d pick)

/-- The process applied to each item of the input in turn, with no pool stack. -/
def applyDirect {T : Type} (q : PoolProcess T) (input : List T) : List (Outcome T) :=
  input.map (q none)

/-- How the tasks of `lo.ChannelToSlice(Pipe(dp, lo.SliceToChannel(0, input), do))` were run
under the scheduler `pick`. -/
def PipeLog {IN OUT : Type} (dp : PoolsPtr) (input : List IN)
    (doF : PoolsPtr → IN → Outcome OUT) (pick : Sched) : List Submission :=
  (run dp doF sliceReader pick (pipeFuel input.length 1) (Pipe input false)).log

/-! ## Inputs of the tests, used to instantiate the theorems -/

/-- The function `inc` of `pool_test.go`. -/
def inc : PoolsPtr → Int → Int := fun _ i => i + 1

/-- A pool of the given capacity, as `InitPool` creates it: not released, blocking. -/
def freshPool (id cap : Nat) : Pool := ⟨id, cap, false, false⟩

/-- The merge of `success_dispatched_process_with_pool`: it receives until the end of the
stream and returns the sum of the children. -/
def sumMerge : Merge Int Int := ⟨fun _ _ => none, fun _ got => got.sum⟩

/-- The merge of `panic_invalid_dispatcher`: `return <-out`. -/
def firstMerge : Merge Int Int := ⟨fun _ got => got.head?, fun _ _ => 0⟩

/-- The dispatch of `success_dispatched_process_with_pool`: the children carry the value of
the parent and that value plus one. -/
def sumDispatch : Dispatch Int Int := ⟨some (fun p => [p, p + 1]), some sumMerge⟩

/-- The dispatch of `success_dispatched_process_no_pool`: two children that carry the value of
the parent. -/
def twinDispatch : Dispatch Int Int := ⟨some (fun p => [p, p]), some sumMerge⟩

/-- The dispatch of `panic_invalid_dispatcher`: two children, one of which is merged. -/
def leakyDispatch : Dispatch Int Int := ⟨some (fun p => [p, p]), some firstMerge⟩

/-- A process built with `Link`, `Wrap` and `AsPoolProcess`. -/
def sumThenDouble : PoolProcess Int :=
  Link [Wrap identity sumDispatch (fun _ => 0), AsPoolProcess (fun m => m * 2)]

/-- A pool library whose second call of `NewPool` fails. -/
def failSecond : NewPoolFn Unit := fun k size _ =>
  if k = 1 then .error (.ants 7) else .ok (freshPool k size.toNat)

/-- The struct `Main` of `processes_test.go`. -/
structure Main where
  init : Int
  result : Int
  deriving DecidableEq, Repr

/-- The first process of `success_linear_process_no_pool`: `m.init = m.init * 2`. -/
def doubleInit : Process Main := fun m => { m with init := m.init * 2 }

/-- The second process of `success_linear_process_no_pool`: `m.result = m.init`. -/
def copyInit : Process Main := fun m => { m with result := m.init }

/-- A pool library in which every call of `NewPool` succeeds. -/
def alwaysPool {Opts : Type} : NewPoolFn Opts := fun k size _ =>
  .ok (freshPool k size.toNat)

/-! # Properties -/

/-! ## `Validate`, `NewDispatch` -/

theorem is_ErrInvalidDispatcher_wrapf (parent child : String) (s m : Bool) :
    (GoError.wrapf ErrInvalidDispatcher parent child s m).is ErrInvalidDispatcher = true := by
  simp [GoError.is, ErrInvalidDispatcher]

theorem Validate_eq_none_iff {Parent Child : Type} [TypeName Parent] [TypeName Child]
    (d : Dispatch Parent Child) :
    d.Validate = none ↔ d.split.isSome = true ∧ d.merge.isSome = true := by
  unfold Dispatch.Validate
  cases hs : d.split <;> cases hm : d.merge <;> simp

/-- C8: `Validate` returns an error exactly when `split` or `merge` is absent, and the error
wraps `ErrInvalidDispatcher`; `NewDispatch` returns the dispatch holding the given `split` and
`merge` together with the verdict of `Validate` on that dispatch (both absent: the error from
both; both present: no error from both). -/
theorem NewDispatch_Validate_spec {Parent Child : Type} [TypeName Parent] [TypeName Child]
    (split : Option (Split Parent Child)) (merge : Option (Merge Parent Child)) :
    ((Dispatch.mk split merge).Validate.isSome = true ↔ (split = none ∨ merge = none)) ∧
    (∀ e, (Dispatch.mk split merge).Validate = some e → e.is ErrInvalidDispatcher = true) ∧
    (NewDispatch split merge).1.split = split ∧
    (NewDispatch split merge).1.merge = merge ∧
    (NewDispatch split merge).2 = (NewDispatch split merge).1.Validate ∧
    (split = none → merge = none →
      ∃ e, (NewDispatch split merge).2 = some e ∧ e.is ErrInvalidDispatcher = true ∧
        (NewDispatch split merge).1.Validate = some e) ∧
    (split.isSome = true → merge.isSome = true →
      (NewDispatch split merge).2 = none ∧ (NewDispatch split merge).1.Validate = none) := by
  refine ⟨?_, ?_, rfl, rfl, rfl, ?_, ?_⟩
  · cases split <;> cases merge <;> simp [Dispatch.Validate]
  · intro e he
    unfold Dispatch.Validate at he
    split at he
    · cases he
      exact is_ErrInvalidDispatcher_wrapf _ _ _ _
    · cases he
  · intro hs hm
    subst hs hm
    exact ⟨_, rfl, is_ErrInvalidDispatcher_wrapf _ _ _ _, rfl⟩
  · intro hs hm
    have h : (Dispatch.mk split merge).Validate = none :=
      (Validate_eq_none_iff _).2 ⟨hs, hm⟩
    exact ⟨h, h⟩

/-! ## `submit` -/

/-- C6: `submit` runs the task in the caller on an absent or empty stack (the task gets that
same stack) and on a stack headed by a pass-through marker (the task gets the tail); otherwise
it hands the task and the tail to the head pool. On a stack of length `n > 0` the task gets
the stack without its index 0, of length `n - 1`, and the receiver is unchanged. In the
coordinator an inline task runs before the coordinator moves on, and starts no worker. -/
theorem submit_policy (p : PoolsPtr) :
    (p = none → (submit p).how = .inline none) ∧
    (∀ ps, p = some ps → ps.pools = [] → (submit p).how = .inline p) ∧
    (∀ ps rest, p = some ps → ps.pools = none :: rest →
      (submit p).how = .inline (some ⟨rest⟩)) ∧
    (∀ ps pool rest, p = some ps → ps.pools = some pool :: rest →
      (submit p).how = .pooled pool (some ⟨rest⟩)) ∧
    (∀ ps, p = some ps → ps.pools ≠ [] →
      ∃ arg : Pools,
        ((submit p).how = .inline (some arg) ∨
          ∃ pool, ps.pools.head? = some (some pool) ∧ (submit p).how = .pooled pool (some arg)) ∧
        arg.pools = ps.pools.drop 1 ∧ arg.pools.length = ps.pools.length - 1) ∧
    (submit p).receiver = p ∧
    (∀ (IN OUT ρ : Type) (doF : PoolsPtr → IN → Outcome OUT) (c : Cfg IN OUT ρ) (v : IN)
        (arg : PoolsPtr) (r : OUT),
      (submit p).how = .inline arg → c.coord = .submitting v → doF arg v = .returned r →
      coordStep p doF c = some { c with coord := .sending r, log := c.log ++ [.inline arg] }) ∧
    (∀ (IN OUT ρ : Type) (doF : PoolsPtr → IN → Outcome OUT) (c : Cfg IN OUT ρ) (v : IN)
        (pool : Pool) (arg : PoolsPtr) (r : OUT),
      (submit p).how = .pooled pool arg → c.coord = .submitting v →
      pool.Submit c.workers.length = .accepted → doF arg v = .returned r →
      coordStep p doF c =
        some { c with coord := .ranging, workers := c.workers ++ [.sending r],
                      log := c.log ++ [.pooled pool arg] }) := by
  refine ⟨?_, ?_, ?_, ?_, ?_, ?_, ?_, ?_⟩
  · rintro rfl; rfl
  · rintro ⟨ps⟩ rfl h
    simp only at h
    subst h
    rfl
  · rintro ⟨ps⟩ rest rfl h
    simp only at h
    subst h
    rfl
  · rintro ⟨ps⟩ pool rest rfl h
    simp only at h
    subst h
    rfl
  · rintro ⟨ps⟩ rfl h
    simp only at h
    match ps, h with
    | none :: rest, _ => exact ⟨⟨rest⟩, Or.inl rfl, rfl, rfl⟩
    | some pool :: rest, _ => exact ⟨⟨rest⟩, Or.inr ⟨pool, rfl, rfl⟩, rfl, rfl⟩
  · match p with
    | none => rfl
    | some ⟨[]⟩ => rfl
    | some ⟨none :: _⟩ => rfl
    | some ⟨some _ :: _⟩ => rfl
  · intro IN OUT ρ doF c v arg r hs hc hd
    simp [coordStep, hc, hs, hd]
  · intro IN OUT ρ doF c v pool arg r hs hc hp hd
    simp [coordStep, hc, hs, hd, hp]

/-! ## `NewPoolsWithOptions`, `Release` -/

theorem Release_released (ps : List (Option Pool)) (w : World) :
    (Pools.Release ⟨ps⟩ w).released = w.released ++ ps.filterMap id ∧
    (Pools.Release ⟨ps⟩ w).created = w.created := by
  unfold Pools.Release
  simp only
  induction ps generalizing w with
  | nil => simp
  | cons entry rest ih =>
      cases entry with
      | none => simpa using ih w
      | some pool =>
          simp only [List.foldl_cons]
          have := ih { w with released := w.released ++ [pool] }
          simpa using this

theorem foldl_buildStep_err {Opts : Type} (newPool : NewPoolFn Opts) (opts : Opts)
    (sizes : List Int) (st : BuildState) (e : GoError) (h : st.err = some e) :
    sizes.foldl (buildStep newPool opts) st = st := by
  induction sizes with
  | nil => rfl
  | cons s rest ih =>
      have : buildStep newPool opts st s = st := by simp [buildStep, h]
      simpa [List.foldl_cons, this] using ih

theorem foldl_buildStep_ok {Opts : Type} (newPool : NewPoolFn Opts) (opts : Opts)
    (pre : List Int) (w : World) (acc : List (Option Pool))
    (hok : ∀ i, i < (pre.filter (· ≠ 0)).length →
      ∃ pool, newPool (w.created.length + i) ((pre.filter (· ≠ 0)).getD i 0) opts = .ok pool) :
    ∃ entries : List (Option Pool),
      pre.foldl (buildStep newPool opts) ⟨none, w, acc⟩ =
        ⟨none, ⟨w.created ++ pre.filter (· ≠ 0), w.released⟩, acc ++ entries⟩ ∧
      entries.filterMap id =
        poolsOfCalls newPool opts w.created.length (pre.filter (· ≠ 0)) := by
  induction pre generalizing w acc with
  | nil => exact ⟨[], by simp, by simp [poolsOfCalls]⟩
  | cons s rest ih =>
      by_cases hs : s = 0
      · subst hs
        have hok' : ∀ i, i < (rest.filter (· ≠ 0)).length →
            ∃ pool, newPool (w.created.length + i) ((rest.filter (· ≠ 0)).getD i 0) opts =
              .ok pool := by
          simpa using hok
        obtain ⟨entries, h1, h2⟩ := ih w (acc ++ [none]) hok'
        refine ⟨none :: entries, ?_, ?_⟩
        · simp only [List.foldl_cons]
          have : buildStep newPool opts ⟨none, w, acc⟩ 0 = ⟨none, w, acc ++ [none]⟩ := by
            simp [buildStep]
          rw [this, h1]
          simp
        · simpa using h2
      · have hf : (s :: rest).filter (· ≠ 0) = s :: rest.filter (· ≠ 0) := by
          simp [hs]
        rw [hf] at hok
        obtain ⟨pool, hpool⟩ := hok 0 (by simp)
        simp only [Nat.add_zero, List.getD_cons_zero] at hpool
        have hok' : ∀ i, i < (rest.filter (· ≠ 0)).length →
            ∃ pool, newPool ((w.created ++ [s]).length + i)
              ((rest.filter (· ≠ 0)).getD i 0) opts = .ok pool := by
          intro i hi
          have := hok (i + 1) (by simpa using hi)
          simpa [Nat.add_assoc, Nat.add_comm 1 i] using this
        obtain ⟨entries, h1, h2⟩ :=
          ih ⟨w.created ++ [s], w.released⟩ (acc ++ [some pool]) hok'
        refine ⟨some pool :: entries, ?_, ?_⟩
        · simp only [List.foldl_cons]
          have : buildStep newPool opts ⟨none, w, acc⟩ s =
              ⟨none, ⟨w.created ++ [s], w.released⟩, acc ++ [some pool]⟩ := by
            simp [buildStep, hs, hpool]
          rw [this, h1, hf]
          simp
        · rw [hf]
          simp only [List.filterMap_cons, id, poolsOfCalls, hpool]
          simpa using h2

/-- C10: when the creation of the pool for the capacity `s` fails with `e`, every creation
before it having succeeded, `NewPoolsWithOptions` returns a nil stack and the error `e`,
calls `ants.NewPool` for no later capacity, and has called `Release` once on each pool created
for the earlier capacities. -/
theorem NewPoolsWithOptions_failure {Opts : Type} (newPool : NewPoolFn Opts) (opts : Opts)
    (w : World) (pre post : List Int) (s : Int) (e : GoError)
    (hs : s ≠ 0)
    (hok : ∀ i, i < (pre.filter (· ≠ 0)).length →
      ∃ pool, newPool (w.created.length + i) ((pre.filter (· ≠ 0)).getD i 0) opts = .ok pool)
    (hfail : newPool (w.created.length + (pre.filter (· ≠ 0)).length) s opts = .error e) :
    (NewPoolsWithOptions newPool (pre ++ s :: post) opts w).pools = none ∧
    (NewPoolsWithOptions newPool (pre ++ s :: post) opts w).err = some e ∧
    (NewPoolsWithOptions newPool (pre ++ s :: post) opts w).world.created =
      w.created ++ pre.filter (· ≠ 0) ++ [s] ∧
    (NewPoolsWithOptions newPool (pre ++ s :: post) opts w).world.released =
      w.released ++ poolsOfCalls newPool opts w.created.length (pre.filter (· ≠ 0)) ∧
    (poolsOfCalls newPool opts w.created.length (pre.filter (· ≠ 0))).length =
      (pre.filter (· ≠ 0)).length := by
  obtain ⟨entries, h1, h2⟩ := foldl_buildStep_ok newPool opts pre w [] hok
  have hstep : buildStep newPool opts
      ⟨none, ⟨w.created ++ pre.filter (· ≠ 0), w.released⟩, [] ++ entries⟩ s =
      ⟨some e, ⟨w.created ++ pre.filter (· ≠ 0) ++ [s], w.released⟩, [] ++ entries⟩ := by
    simp only [buildStep, ne_eq, hs, not_false_eq_true, if_true, List.length_append]
    rw [hfail]
  have hfold : (pre ++ s :: post).foldl (buildStep newPool opts) ⟨none, w, []⟩ =
      ⟨some e, ⟨w.created ++ pre.filter (· ≠ 0) ++ [s], w.released⟩, [] ++ entries⟩ := by
    rw [List.foldl_append, h1, List.foldl_cons, hstep]
    exact foldl_buildStep_err newPool opts post _ e rfl
  have hrel := Release_released ([] ++ entries)
    ⟨w.created ++ pre.filter (· ≠ 0) ++ [s], w.released⟩
  refine ⟨?_, ?_, ?_, ?_, ?_⟩
  · simp [NewPoolsWithOptions, hfold]
  · simp [NewPoolsWithOptions, hfold]
  · simp only [NewPoolsWithOptions, hfold]
    exact hrel.2
  · simp only [NewPoolsWithOptions, hfold]
    rw [hrel.1, ← h2]
    simp
  · clear h1 h2 hstep hfold hrel hfail
    generalize w.created.length = k at hok ⊢
    generalize pre.filter (· ≠ 0) = nz at hok ⊢
    induction nz generalizing k with
    | nil => simp [poolsOfCalls]
    | cons t rest ih =>
        obtain ⟨pool, hpool⟩ := hok 0 (by simp)
        simp only [Nat.add_zero, List.getD_cons_zero] at hpool
        simp only [poolsOfCalls, hpool, List.length_cons, Nat.add_right_cancel_iff]
        apply ih
        intro i hi
        have := hok (i + 1) (by simpa using hi)
        simpa [Nat.add_assoc, Nat.add_comm 1 i] using this

/-! ## The transition system -/

section Transitions

variable {IN OUT ρ : Type} {dp : PoolsPtr} {doF : PoolsPtr → IN → Outcome OUT} {g : IN → OUT}
  {rk : Reader OUT ρ}

theorem coordStep_trans (hu : Usable dp doF g) {c c' : Cfg IN OUT ρ}
    (h : coordStep dp doF c = some c') : Trans dp g rk c c' := by
  unfold coordStep at h
  split at h
  · rename_i hc
    split at h
    · rename_i hg
      simp only [Bool.and_eq_true, List.isEmpty_iff] at hg
      cases h
      exact Trans.endRange hc hg.1 hg.2
    · cases h
  · rename_i v hc
    split at h
    · rename_i arg hs
      rw [hu.inline arg hs v] at h
      cases h
      exact Trans.inlineRun v arg hc hs
    · rename_i pool arg hs
      obtain ⟨hdo, hcl, hnb, hcap⟩ := hu.pooled pool arg hs
      rw [hdo v] at h
      by_cases hlt : c.workers.length < pool.cap
      · have : pool.Submit c.workers.length = .accepted := by simp [Pool.Submit, hcl, hlt]
        rw [this] at h
        cases h
        exact Trans.handOver v pool arg hc hs hlt
      · have : pool.Submit c.workers.length = .wait := by simp [Pool.Submit, hcl, hlt, hnb]
        rw [this] at h
        cases h
  · rename_i hc
    cases h
    exact Trans.coordDone hc
  · rename_i hc
    split at h
    · rename_i hw
      cases h
      exact Trans.close hc hw
    · cases h
  all_goals cases h

theorem step_trans (hu : Usable dp doF g) {c c' : Cfg IN OUT ρ} {a : Act}
    (h : step dp doF rk c a = some c') : Trans dp g rk c c' := by
  unfold step at h
  split at h
  · cases h
  · cases a with
    | feed =>
        simp only at h
        split at h
        · rename_i v rest hc hsrc
          cases h
          exact Trans.feed v rest hc hsrc
        · cases h
    | closeIn =>
        simp only at h
        split at h
        · rename_i hg
          simp only [Bool.and_eq_true, List.isEmpty_iff, Bool.not_eq_true'] at hg
          cases h
          exact Trans.closeIn hg.1 hg.2
        · cases h
    | coord => exact coordStep_trans hu h
    | workerDone i =>
        simp only at h
        split at h
        · rename_i hw
          cases h
          exact Trans.workerDone i hw
        · cases h
    | recvCoord =>
        simp only at h
        split at h
        · rename_i k r hk hc
          cases h
          exact Trans.recvCoord k r hk hc
        · cases h
    | recvWorker i =>
        simp only at h
        split at h
        · rename_i k r hk hw
          cases h
          exact Trans.recvWorker k i r hk hw
        · cases h
    | recvClosed =>
        simp only at h
        split at h
        · rename_i k hk
          split at h
          · rename_i hpos
            cases h
            exact Trans.recvClosed k hk hpos
          · cases h
        · cases h
end Transitions

section Termination

variable {IN OUT ρ : Type} {dp : PoolsPtr} {doF : PoolsPtr → IN → Outcome OUT}
  {rk : Reader OUT ρ} {rank : ρ → Nat}

theorem weight_sum_eraseIdx {OUT : Type} (ws : List (Worker OUT)) (i : Nat) (w : Worker OUT)
    (h : ws.get? i = some w) :
    (ws.map Worker.weight).sum = w.weight + ((ws.eraseIdx i).map Worker.weight).sum := by
  induction ws generalizing i with
  | nil => simp at h
  | cons x xs ih =>
      cases i with
      | zero =>
          simp only [List.get?_cons_zero, Option.some.injEq] at h
          subst h
          simp
      | succ j =>
          simp only [List.get?_cons_succ] at h
          have := ih j h
          simp only [List.map_cons, List.sum_cons, List.eraseIdx_cons_succ, this]
          omega

theorem weight_sum_set {OUT : Type} (ws : List (Worker OUT)) (i : Nat) (w w' : Worker OUT)
    (h : ws.get? i = some w) :
    ((ws.set i w').map Worker.weight).sum + w.weight =
      (ws.map Worker.weight).sum + w'.weight := by
  induction ws generalizing i with
  | nil => simp at h
  | cons x xs ih =>
      cases i with
      | zero =>
          simp only [List.get?_cons_zero, Option.some.injEq] at h
          subst h
          simp only [List.set_cons_zero, List.map_cons, List.sum_cons]
          omega
      | succ j =>
          simp only [List.get?_cons_succ] at h
          have := ih j h
          simp only [List.set_cons_succ, List.map_cons, List.sum_cons]
          omega

theorem coordStep_measure {c c' : Cfg IN OUT ρ} (h : coordStep dp doF c = some c') :
    c'.measure rank < c.measure rank := by
  unfold coordStep at h
  split at h
  · rename_i hc
    split at h
    · cases h
      simp [Cfg.measure, hc, Coord.weight]
    · cases h
  · rename_i v hc
    split at h
    · split at h <;> cases h <;> simp [Cfg.measure, hc, Coord.weight]
    · split at h
      · cases h
        simp [Cfg.measure, hc, Coord.weight]
      · cases h
      · split at h <;> cases h <;> simp [Cfg.measure, hc, Coord.weight, Worker.weight] <;> omega
  · rename_i hc
    cases h
    simp [Cfg.measure, hc, Coord.weight]
  · rename_i hc
    split at h
    · cases h
      simp [Cfg.measure, hc, Coord.weight]
    · cases h
  all_goals cases h

theorem step_measure (hr : Ranked rk rank) {c c' : Cfg IN OUT ρ} {a : Act}
    (h : step dp doF rk c a = some c') : c'.measure rank < c.measure rank := by
  unfold step at h
  split at h
  · cases h
  · cases a with
    | feed =>
        simp only at h
        split at h
        · rename_i v rest hc hsrc
          cases h
          simp only [Cfg.measure, hc, hsrc, Coord.weight, List.length_cons]
          omega
        · cases h
    | closeIn =>
        simp only at h
        split at h
        · rename_i hg
          simp only [Bool.and_eq_true, List.isEmpty_iff, Bool.not_eq_true'] at hg
          cases h
          simp [Cfg.measure, hg.2]
        · cases h
    | coord => exact coordStep_measure h
    | workerDone i =>
        simp only at h
        split at h
        · rename_i hw
          cases h
          have := weight_sum_eraseIdx c.workers i _ hw
          simp only [Cfg.measure, this, Worker.weight]
          omega
        · cases h
    | recvCoord =>
        simp only at h
        split at h
        · rename_i k r hk hc
          cases h
          have := hr.value c.rd k r hk
          simp only [Cfg.measure, hc, Coord.weight]
          omega
        · cases h
    | recvWorker i =>
        simp only at h
        split at h
        · rename_i k r hk hw
          cases h
          have h1 := hr.value c.rd k r hk
          have h2 := weight_sum_set c.workers i _ .deferred hw
          simp only [Worker.weight] at h2
          simp only [Cfg.measure]
          omega
        · cases h
    | recvClosed =>
        simp only at h
        split at h
        · rename_i k hk
          split at h
          · cases h
            have := hr.closed c.rd k hk
            simp only [Cfg.measure]
            omega
          · cases h
        · cases h

theorem enabled_step {c : Cfg IN OUT ρ} {a : Act} (h : a ∈ enabled dp doF rk c) :
    ∃ c', step dp doF rk c a = some c' := by
  unfold enabled at h
  split at h
  · simp at h
  · simp only [List.mem_filter] at h
    exact Option.isSome_iff_exists.1 h.2

theorem getD_mem_cons {α : Type} (a : α) (as : List α) (i : Nat) :
    (a :: as).getD (i % (a :: as).length) a ∈ a :: as := by
  have hlt : i % (a :: as).length < (a :: as).length := Nat.mod_lt _ (by simp)
  rw [List.getD_eq_getElem _ _ hlt]
  exact List.getElem_mem _

/-- A run preserves every property that every step preserves. -/
theorem run_preserves (dp : PoolsPtr) (doF : PoolsPtr → IN → Outcome OUT)
    (rk : Reader OUT ρ) (J : Cfg IN OUT ρ → Prop)
    (hJ : ∀ c a c', J c → step dp doF rk c a = some c' → J c')
    (pick : Sched) (n : Nat) (c : Cfg IN OUT ρ) (h : J c) : J (run dp doF rk pick n c) := by
  induction n generalizing c with
  | zero => exact h
  | succ n ih =>
      unfold run
      split
      · exact h
      · split
        · rename_i c' hstep
          exact ih c' (hJ _ _ _ h hstep)
        · exact h

/-- With fuel for `measure` steps a run ends in a configuration without enabled action. -/
theorem run_quiescent (hr : Ranked rk rank) (pick : Sched) (n : Nat) (c : Cfg IN OUT ρ)
    (h : c.measure rank ≤ n) : enabled dp doF rk (run dp doF rk pick n c) = [] := by
  induction n generalizing c with
  | zero =>
      simp only [run]
      cases hen : enabled dp doF rk c with
      | nil => rfl
      | cons a as =>
          obtain ⟨c', hc'⟩ := enabled_step (hen ▸ List.mem_cons_self a as)
          have : c'.measure rank < c.measure rank := step_measure hr hc'
          omega
  | succ n ih =>
      unfold run
      split
      · assumption
      · rename_i a as hen
        have hmem := getD_mem_cons a as (pick n)
        rw [← hen] at hmem
        obtain ⟨c', hc'⟩ := enabled_step hmem
        rw [hen] at hc'
        rw [hc']
        have : c'.measure rank < c.measure rank := step_measure hr hc'
        exact ih c' (by omega)

end Termination

section Invariant

variable {IN OUT ρ : Type} {dp : PoolsPtr} {doF : PoolsPtr → IN → Outcome OUT} {g : IN → OUT}
  {rk : Reader OUT ρ} {input : List IN}

theorem sendingOf_append {OUT : Type} (ws : List (Worker OUT)) (w : Worker OUT) :
    sendingOf (ws ++ [w]) = sendingOf ws ++ (w.out).toList := by
  cases w <;> simp [sendingOf, Worker.out]

theorem sendingOf_eraseIdx {OUT : Type} (ws : List (Worker OUT)) (i : Nat)
    (h : ws.get? i = some .deferred) : sendingOf (ws.eraseIdx i) = sendingOf ws := by
  induction ws generalizing i with
  | nil => simp at h
  | cons x xs ih =>
      cases i with
      | zero =>
          simp only [List.get?_cons_zero, Option.some.injEq] at h
          subst h
          simp [sendingOf, Worker.out]
      | succ j =>
          simp only [List.get?_cons_succ] at h
          have := ih j h
          simp only [sendingOf, List.eraseIdx_cons_succ, List.filterMap_cons] at this ⊢
          rw [this]

theorem sendingOf_set {OUT : Type} (ws : List (Worker OUT)) (i : Nat) (r : OUT)
    (h : ws.get? i = some (.sending r)) :
    ∃ l₁ l₂, sendingOf ws = l₁ ++ r :: l₂ ∧ sendingOf (ws.set i .deferred) = l₁ ++ l₂ ∧
      (i = 0 → l₁ = []) := by
  induction ws generalizing i with
  | nil => simp at h
  | cons x xs ih =>
      cases i with
      | zero =>
          simp only [List.get?_cons_zero, Option.some.injEq] at h
          subst h
          exact ⟨[], sendingOf xs, by simp [sendingOf, Worker.out],
            by simp [sendingOf, Worker.out], fun _ => rfl⟩
      | succ j =>
          simp only [List.get?_cons_succ] at h
          obtain ⟨l₁, l₂, h1, h2, _⟩ := ih j h
          cases x with
          | sending s =>
              refine ⟨s :: l₁, l₂, ?_, ?_, by simp⟩
              · simpa [sendingOf, Worker.out] using h1
              · simpa [sendingOf, Worker.out] using h2
          | deferred =>
              refine ⟨l₁, l₂, ?_, ?_, by simp⟩
              · simpa [sendingOf, Worker.out] using h1
              · simpa [sendingOf, Worker.out] using h2
          | stuck =>
              refine ⟨l₁, l₂, ?_, ?_, by simp⟩
              · simpa [sendingOf, Worker.out] using h1
              · simpa [sendingOf, Worker.out] using h2

theorem get?_length_pos {α : Type} {l : List α} {i : Nat} {a : α} (h : l.get? i = some a) :
    i < l.length := by
  by_contra hn
  rw [List.get?_eq_none.2 (by omega)] at h
  cases h

theorem Trans.inv {c c' : Cfg IN OUT ρ} (h : Trans dp g rk c c') (hi : Inv dp g input c) :
    Inv dp g input c' := by
  obtain ⟨h1, h2, h3, h4, h5, h6, h7, h8, h9, h10, h11⟩ := hi
  cases h with
  | feed v rest hc hsrc =>
      refine ⟨?_, ?_, rfl, h4, ?_, ?_, ?_, h8, h9, ?_, ?_⟩
      · simpa [Cfg.ahead, hc, hsrc, Coord.pending] using h1
      · simp only [hc, Coord.holds] at h2 ⊢
        omega
      · rw [h5, hc]
        rfl
      · intro h
        simp [Coord.late] at h
      · intro h
        cases h
      · intro r h
        cases h
      · simp only [hc, hsrc, Coord.queued, List.length_cons] at h11 ⊢
        omega
  | closeIn hsrc hcl =>
      refine ⟨h1, h2, h3, h4, h5, ?_, h7, h8, h9, h10, h11⟩
      intro _
      exact ⟨rfl, hsrc⟩
  | endRange hc hcl hsrc =>
      refine ⟨?_, ?_, rfl, h4, ?_, ?_, ?_, h8, h9, ?_, ?_⟩
      · simpa [Cfg.ahead, hc, hsrc, Coord.pending] using h1
      · simpa [hc, Coord.holds] using h2
      · rw [h5, hc]
        rfl
      · intro _
        exact ⟨hcl, hsrc⟩
      · intro h
        cases h
      · intro r h
        cases h
      · simpa [hc, Coord.queued] using h11
  | inlineRun v arg hc hs =>
      refine ⟨?_, ?_, rfl, h4, ?_, ?_, ?_, ?_, h9, ?_, ?_⟩
      · simpa [Cfg.ahead, hc, Coord.pending] using h1
      · simpa [hc, Coord.holds] using h2
      · rw [h5, hc]
        rfl
      · intro h
        simp [Coord.late] at h
      · intro h
        cases h
      · intro e he
        rcases List.mem_append.1 he with h | h
        · exact h8 e h
        · rw [List.mem_singleton.1 h, hs]
      · intro r _
        exact ⟨arg, hs⟩
      · simp only [hc, Coord.queued, List.length_append, List.length_singleton] at h11 ⊢
        omega
  | handOver v pool arg hc hs hlt =>
      refine ⟨?_, ?_, rfl, ?_, ?_, ?_, ?_, ?_, ?_, ?_, ?_⟩
      · simpa [Cfg.ahead, hc, Coord.pending, sendingOf_append, Worker.out] using h1
      · simp only [hc, Coord.holds, List.length_append, List.length_singleton] at h2 ⊢
        omega
      · intro w hw
        rcases List.mem_append.1 hw with h | h
        · exact h4 w h
        · rw [List.mem_singleton.1 h]
          simp
      · rw [h5, hc]
        rfl
      · intro h
        simp [Coord.late] at h
      · intro h
        cases h
      · intro e he
        rcases List.mem_append.1 he with h | h
        · exact h8 e h
        · rw [List.mem_singleton.1 h, hs]
      · intro arg' hs'
        rw [hs] at hs'
        cases hs'
      · intro r h
        cases h
      · simp only [hc, Coord.queued, List.length_append, List.length_singleton] at h11 ⊢
        omega
  | coordDone hc =>
      refine ⟨?_, ?_, rfl, h4, ?_, ?_, ?_, h8, h9, ?_, ?_⟩
      · simpa [Cfg.ahead, hc, Coord.pending] using h1
      · simp only [hc, Coord.holds] at h2 ⊢
        omega
      · rw [h5, hc]
        rfl
      · intro h
        simp [Coord.late] at h
      · intro h
        cases h
      · intro r h
        cases h
      · simpa [hc, Coord.queued] using h11
  | close hc hw =>
      have hno : c.workers = [] := by
        simp only [hc, Coord.holds, hw, Nat.add_zero] at h2
        exact List.length_eq_zero.1 h2.symm
      refine ⟨?_, ?_, rfl, h4, ?_, ?_, ?_, h8, h9, ?_, ?_⟩
      · simpa [Cfg.ahead, hc, Coord.pending] using h1
      · simpa [hc, Coord.holds] using h2
      · simp only [h5, hc, Coord.closes]
      · intro _
        exact h6 (by rw [hc]; rfl)
      · intro _
        exact hno
      · intro r h
        cases h
      · simpa [hc, Coord.queued] using h11
  | workerDone i hw =>
      have hlen := get?_length_pos hw
      refine ⟨?_, ?_, h3, ?_, h5, h6, ?_, h8, ?_, h10, h11⟩
      · simpa [Cfg.ahead, sendingOf_eraseIdx _ _ hw] using h1
      · simp only [List.length_eraseIdx, hlen, if_true, h2]
        omega
      · intro w hw'
        exact h4 w (List.mem_of_mem_eraseIdx hw')
      · intro hf
        rw [h7 hf] at hlen
        simp at hlen
      · intro arg hs
        rw [h9 arg hs] at hlen
        simp at hlen
  | recvCoord k r hk hc =>
      refine ⟨?_, ?_, rfl, h4, ?_, ?_, ?_, h8, h9, ?_, ?_⟩
      · refine List.Perm.trans ?_ h1
        simp only [Cfg.ahead, hc, Coord.pending, List.append_assoc, List.nil_append,
          List.singleton_append]
        exact List.Perm.append_left _ List.perm_middle.symm
      · simpa [hc, Coord.holds] using h2
      · rw [h5, hc]
        rfl
      · intro h
        simp [Coord.late] at h
      · intro h
        cases h
      · intro r h
        cases h
      · simpa [hc, Coord.queued] using h11
  | recvWorker k i r hk hw =>
      have hlen := get?_length_pos hw
      obtain ⟨l₁, l₂, e1, e2, _⟩ := sendingOf_set c.workers i r hw
      refine ⟨?_, ?_, h3, ?_, h5, h6, ?_, h8, ?_, h10, h11⟩
      · refine List.Perm.trans ?_ h1
        simp only [Cfg.ahead, e1, e2, List.append_assoc, List.singleton_append]
        exact List.Perm.append_left _ List.perm_middle.symm
      · simpa using h2
      · intro w hw'
        rcases List.mem_or_eq_of_mem_set hw' with h | h
        · exact h4 w h
        · rw [h]
          simp
      · intro hf
        rw [h7 hf] at hlen
        simp at hlen
      · intro arg hs
        rw [h9 arg hs] at hlen
        simp at hlen
  | recvClosed k hk hpos =>
      exact ⟨h1, h2, h3, h4, h5, h6, h7, h8, h9, h10, h11⟩

end Invariant

section Progress

variable {IN OUT ρ : Type} {dp : PoolsPtr} {doF : PoolsPtr → IN → Outcome OUT} {g : IN → OUT}
  {rk : Reader OUT ρ} {input : List IN}

theorem Trans.ordered (hser : Serial dp) {c c' : Cfg IN OUT ρ} (h : Trans dp g rk c c')
    (hi : Inv dp g input c) (ho : Ordered g input c) : Ordered g input c' := by
  obtain ⟨h1, h2⟩ := ho
  cases h with
  | feed v rest hc hsrc =>
      exact ⟨by simpa [Cfg.ahead, hc, hsrc, Coord.pending] using h1, h2⟩
  | closeIn hsrc hcl => exact ⟨h1, h2⟩
  | endRange hc hcl hsrc =>
      exact ⟨by simpa [Cfg.ahead, hc, hsrc, Coord.pending] using h1, h2⟩
  | inlineRun v arg hc hs =>
      exact ⟨by simpa [Cfg.ahead, hc, Coord.pending] using h1, h2⟩
  | handOver v pool arg hc hs hlt =>
      have hcap := hser pool arg hs
      have hno : c.workers = [] := List.length_eq_zero.1 (by omega)
      refine ⟨?_, by simp [hno]⟩
      simpa [Cfg.ahead, hc, hno, Coord.pending, sendingOf, Worker.out] using h1
  | coordDone hc =>
      exact ⟨by simpa [Cfg.ahead, hc, Coord.pending] using h1, h2⟩
  | close hc hw =>
      exact ⟨by simpa [Cfg.ahead, hc, Coord.pending] using h1, h2⟩
  | workerDone i hw =>
      refine ⟨by simpa [Cfg.ahead, sendingOf_eraseIdx _ _ hw] using h1, ?_⟩
      have := (List.eraseIdx_sublist c.workers i).length_le
      exact Nat.le_trans this h2
  | recvCoord k r hk hc =>
      obtain ⟨arg, hs⟩ := hi.inline_send r hc
      have hno := hi.idle arg hs
      exact ⟨by simpa [Cfg.ahead, hc, hno, Coord.pending, sendingOf] using h1, h2⟩
  | recvWorker k i r hk hw =>
      have hlen := get?_length_pos hw
      obtain ⟨l₁, l₂, e1, e2, e3⟩ := sendingOf_set c.workers i r hw
      have hl : l₁ = [] := e3 (by omega)
      subst hl
      refine ⟨?_, by simpa using h2⟩
      simpa [Cfg.ahead, e1, e2] using h1
  | recvClosed k hk hpos => exact ⟨h1, h2⟩

theorem dead_of_healthy {c : Cfg IN OUT ρ} (h : c.coord.healthy = true) : c.dead = false := by
  unfold Cfg.dead
  cases hc : c.coord <;> simp_all [Coord.healthy]

theorem zero_mem_candidates {c : Cfg IN OUT ρ} (h : c.workers ≠ []) :
    Act.workerDone 0 ∈ candidates c ∧ Act.recvWorker 0 ∈ candidates c := by
  have hpos : 0 < c.workers.length := List.length_pos.2 h
  simp [candidates, List.mem_flatMap, hpos]

/-- A busy worker can always move when the reader is at a receive: it completes its send, or
it runs its deferred `wg.Done()`. -/
theorem worker_progress (hi : Inv dp g input c) {k : Option OUT → ρ} (hk : rk c.rd = some k)
    (h : c.workers ≠ []) : ∃ a ∈ candidates c, (step dp doF rk c a).isSome = true := by
  have hd := dead_of_healthy hi.healthy
  obtain ⟨w, ws, hw⟩ := List.exists_cons_of_ne_nil h
  have hmem := zero_mem_candidates h
  cases w with
  | sending r =>
      exact ⟨.recvWorker 0, hmem.2, by simp [step, hd, hk, hw]⟩
  | deferred =>
      exact ⟨.workerDone 0, hmem.1, by simp [step, hd, hw]⟩
  | stuck =>
      exact absurd rfl (hi.workers_ok .stuck (by simp [hw]))

/-- Progress: while the reader is at a receive, some action is enabled. -/
theorem progress (hu : Usable dp doF g) {c : Cfg IN OUT ρ} (hi : Inv dp g input c)
    {k : Option OUT → ρ} (hk : rk c.rd = some k) : enabled dp doF rk c ≠ [] := by
  have hd := dead_of_healthy hi.healthy
  suffices h : ∃ a ∈ candidates c, (step dp doF rk c a).isSome = true by
    obtain ⟨a, ha, hs⟩ := h
    have : a ∈ enabled dp doF rk c := by
      unfold enabled
      simp only [hk, Option.isNone_some, Bool.false_eq_true, if_false, List.mem_filter]
      exact ⟨ha, hs⟩
    exact List.ne_nil_of_mem this
  cases hc : c.coord with
  | ranging =>
      cases hsrc : c.src with
      | cons v rest =>
          exact ⟨.feed, by simp [candidates], by simp [step, hd, hc, hsrc]⟩
      | nil =>
          cases hcl : c.inClosed with
          | false => exact ⟨.closeIn, by simp [candidates], by simp [step, hd, hsrc, hcl]⟩
          | true =>
              exact ⟨.coord, by simp [candidates],
                by simp [step, hd, coordStep, hc, hsrc, hcl]⟩
  | submitting v =>
      cases hs : (submit dp).how with
      | inline arg =>
          exact ⟨.coord, by simp [candidates],
            by simp [step, hd, coordStep, hc, hs, hu.inline arg hs v]⟩
      | pooled pool arg =>
          obtain ⟨hdo, hcl, hnb, hcap⟩ := hu.pooled pool arg hs
          by_cases hlt : c.workers.length < pool.cap
          · exact ⟨.coord, by simp [candidates],
              by simp [step, hd, coordStep, hc, hs, Pool.Submit, hcl, hlt, hdo v]⟩
          · refine worker_progress hi hk ?_
            intro hno
            rw [hno] at hlt
            exact hlt hcap
  | sending r =>
      exact ⟨.recvCoord, by simp [candidates], by simp [step, hd, hk, hc]⟩
  | deferred =>
      exact ⟨.coord, by simp [candidates], by simp [step, hd, coordStep, hc]⟩
  | waiting =>
      by_cases hw : c.wg = 0
      · exact ⟨.coord, by simp [candidates], by simp [step, hd, coordStep, hc, hw]⟩
      · refine worker_progress hi hk ?_
        intro hno
        have := hi.wg_eq
        simp [hc, Coord.holds, hno] at this
        exact hw this
  | finished =>
      have hcl : c.outCloses = 1 := by
        rw [hi.closes, hc]
        rfl
      exact ⟨.recvClosed, by simp [candidates], by simp [step, hd, hk, hcl]⟩
  | crashed p =>
      have := hi.healthy
      simp [hc, Coord.healthy] at this
  | stuck =>
      have := hi.healthy
      simp [hc, Coord.healthy] at this

/-- The invariant holds right after `Pipe` returned. -/
theorem Pipe_inv (dp : PoolsPtr) (g : IN → OUT) (input : List IN) (rd : ρ) :
    Inv dp g input (Pipe input rd : Cfg IN OUT ρ) := by
  refine ⟨?_, rfl, rfl, ?_, rfl, ?_, ?_, ?_, ?_, ?_, by simp [Pipe, Coord.queued]⟩
  · simp [Pipe, Cfg.ahead, sendingOf, Coord.pending]
  · intro w hw
    simp [Pipe] at hw
  · intro h
    simp [Pipe, Coord.late] at h
  · intro h
    simp [Pipe] at h
  · intro e he
    simp [Pipe] at he
  · intro _ _
    rfl
  · intro r h
    simp [Pipe] at h

theorem Pipe_ordered (g : IN → OUT) (input : List IN) (rd : ρ) :
    Ordered g input (Pipe input rd : Cfg IN OUT ρ) :=
  ⟨by simp [Pipe, Cfg.ahead, sendingOf, Coord.pending], by simp [Pipe]⟩

/-- The invariants hold in every configuration of a run. -/
theorem run_inv (rk : Reader OUT ρ) (hu : Usable dp doF g) (pick : Sched) (n : Nat) (c : Cfg IN OUT ρ)
    (hi : Inv dp g input c) : Inv dp g input (run dp doF rk pick n c) :=
  run_preserves dp doF rk (Inv dp g input) (fun _ _ _ h hs => (step_trans hu hs).inv h)
    pick n c hi

theorem run_ordered (rk : Reader OUT ρ) (hu : Usable dp doF g) (hser : Serial dp) (pick : Sched) (n : Nat)
    (c : Cfg IN OUT ρ) (hi : Inv dp g input c) (ho : Ordered g input c) :
    Ordered g input (run dp doF rk pick n c) :=
  (run_preserves dp doF rk (fun c => Inv dp g input c ∧ Ordered g input c)
    (fun _ _ _ h hs => ⟨(step_trans hu hs).inv h.1, (step_trans hu hs).ordered hser h.1 h.2⟩)
    pick n c ⟨hi, ho⟩).2

/-- With enough fuel, a run with a usable stack and task ends with a reader that no longer
receives. -/
theorem run_reader_done (hu : Usable dp doF g) {rank : ρ → Nat} (hr : Ranked rk rank)
    (pick : Sched) (n : Nat) (c : Cfg IN OUT ρ) (hi : Inv dp g input c)
    (hn : c.measure rank ≤ n) : rk (run dp doF rk pick n c).rd = none := by
  have hq : enabled dp doF rk (run dp doF rk pick n c) = [] :=
    run_quiescent hr pick n c hn
  have hinv := run_inv rk hu pick n c hi
  cases hrd : rk (run dp doF rk pick n c).rd with
  | none => rfl
  | some k => exact absurd hq (progress hu hinv hrd)

end Progress

section PipeSlice

variable {IN OUT : Type} {dp : PoolsPtr} {doF : PoolsPtr → IN → Outcome OUT} {g : IN → OUT}
  {input : List IN}

theorem submit_how (dp : PoolsPtr) :
    (headPool dp = none ∧ (submit dp).how = .inline (tailOf dp)) ∨
    (∃ pool, headPool dp = some pool ∧ (submit dp).how = .pooled pool (tailOf dp)) := by
  match dp with
  | none => exact Or.inl ⟨rfl, rfl⟩
  | some ⟨[]⟩ => exact Or.inl ⟨rfl, rfl⟩
  | some ⟨none :: _⟩ => exact Or.inl ⟨rfl, rfl⟩
  | some ⟨some pool :: _⟩ => exact Or.inr ⟨pool, rfl, rfl⟩

/-- A task that returns the value of `f` is usable on a stack whose head pool, if any, is not
released, blocks on saturation and has a worker. -/
theorem usable_pureTask (dp : PoolsPtr) (f : PoolsPtr → IN → OUT)
    (hp : ∀ pool, headPool dp = some pool →
      pool.closed = false ∧ pool.nonblocking = false ∧ 0 < pool.cap) :
    Usable dp (pureTask f) (f (tailOf dp)) := by
  rcases submit_how dp with ⟨_, hs⟩ | ⟨pool, hh, hs⟩
  · refine ⟨?_, ?_⟩
    · intro arg ha v
      rw [hs] at ha
      cases ha
      rfl
    · intro pool arg ha
      rw [hs] at ha
      cases ha
  · refine ⟨?_, ?_⟩
    · intro arg ha
      rw [hs] at ha
      cases ha
    · intro pool' arg ha
      rw [hs] at ha
      cases ha
      exact ⟨fun _ => rfl, hp pool hh⟩

theorem serial_of_headPool (dp : PoolsPtr)
    (h : ∀ pool, headPool dp = some pool → pool.cap ≤ 1) : Serial dp := by
  intro pool arg hs
  rcases submit_how dp with ⟨_, hs'⟩ | ⟨pool', hh, hs'⟩
  · rw [hs'] at hs
    cases hs
  · rw [hs'] at hs
    cases hs
    exact h pool hh

theorem ranked_sliceReader : Ranked (sliceReader : Reader OUT Bool) sliceRank := by
  refine ⟨?_, ?_⟩
  · intro s k v h
    cases s with
    | false =>
        simp only [sliceReader, Option.some.injEq] at h
        subst h
        simp [sliceRank]
    | true => simp [sliceReader] at h
  · intro s k h
    cases s with
    | false =>
        simp only [sliceReader, Option.some.injEq] at h
        subst h
        simp [sliceRank]
    | true => simp [sliceReader] at h

/-- Once the coordinator has finished it stays finished. -/
theorem Trans.finished {ρ : Type} {rk : Reader OUT ρ} {c c' : Cfg IN OUT ρ}
    (h : Trans dp g rk c c') (hf : c.coord = .finished) : c'.coord = .finished := by
  cases h <;> simp_all

theorem Trans.sliceDone {c c' : Cfg IN OUT Bool} (h : Trans dp g sliceReader c c')
    (hi : Inv dp g input c) (hd : SliceDone c) : SliceDone c' := by
  have hfin := h.finished
  cases h with
  | recvCoord k r hk hc =>
      intro hrd
      cases hcrd : c.rd with
      | true => simp [hcrd, sliceReader] at hk
      | false =>
          simp only [hcrd, sliceReader, Option.some.injEq] at hk
          subst hk
          simp at hrd
  | recvWorker k i r hk hw =>
      intro hrd
      cases hcrd : c.rd with
      | true => simp [hcrd, sliceReader] at hk
      | false =>
          simp only [hcrd, sliceReader, Option.some.injEq] at hk
          subst hk
          simp at hrd
  | recvClosed k hk hpos =>
      intro _
      have h5 := hi.closes
      show c.coord = .finished
      cases hc : c.coord <;> simp_all [Coord.closes]
  | feed v rest hc hsrc =>
      intro hrd
      have := hd hrd
      simp [hc] at this
  | closeIn hsrc hcl => exact fun hrd => hfin (hd hrd)
  | endRange hc hcl hsrc => exact fun hrd => hfin (hd hrd)
  | inlineRun v arg hc hs => exact fun hrd => hfin (hd hrd)
  | handOver v pool arg hc hs hlt => exact fun hrd => hfin (hd hrd)
  | coordDone hc => exact fun hrd => hfin (hd hrd)
  | close hc hw => exact fun _ => rfl
  | workerDone i hw => exact fun hrd => hfin (hd hrd)

/-- In a configuration whose coordinator has finished every result was received. -/
theorem Inv.finished_all {ρ : Type} {c : Cfg IN OUT ρ} (hi : Inv dp g input c)
    (hf : c.coord = .finished) : c.ahead g = [] ∧ c.outLog.Perm (input.map g) := by
  have hsrc := (hi.late (by rw [hf]; rfl)).2
  have hw := hi.quiet hf
  have ha : c.ahead g = [] := by simp [Cfg.ahead, hsrc, hw, hf, Coord.pending, sendingOf]
  refine ⟨ha, ?_⟩
  have := hi.conserve
  rwa [ha, List.append_nil] at this

/-- The final configuration of a run of `Pipe` read by `lo.ChannelToSlice`: the reader has
returned, `out` was closed once, and the slice holds every result, in the order of the input
when the head of the stack is serial. -/
theorem run_slice (input : List IN) (hu : Usable dp doF g) (pick : Sched) (n : Nat)
    (hn : pipeFuel input.length 1 ≤ n) :
    (run dp doF sliceReader pick n (Pipe input false)).rd = true ∧
    (run dp doF sliceReader pick n (Pipe input false)).outCloses = 1 ∧
    (run dp doF sliceReader pick n (Pipe input false)).outLog.Perm (input.map g) ∧
    (Serial dp → (run dp doF sliceReader pick n (Pipe input false)).outLog = input.map g) := by
  have hi0 : Inv dp g input (Pipe input false : Cfg IN OUT Bool) := Pipe_inv dp g input false
  have hm : (Pipe input false : Cfg IN OUT Bool).measure sliceRank ≤ n := by
    simp only [Cfg.measure, Pipe, Coord.weight, sliceRank, pipeFuel] at hn ⊢
    simp
    omega
  have hdone := run_reader_done hu ranked_sliceReader pick n _ hi0 hm
  have hinv := run_inv sliceReader hu pick n _ hi0
  have hsd : SliceDone (run dp doF sliceReader pick n (Pipe input false)) := by
    have := run_preserves dp doF sliceReader
      (fun c => Inv dp g input c ∧ SliceDone c)
      (fun _ _ _ h hs => ⟨(step_trans hu hs).inv h.1, (step_trans hu hs).sliceDone h.1 h.2⟩)
      pick n (Pipe input false) ⟨hi0, by intro h; cases h⟩
    exact this.2
  have hord : Serial dp →
      Ordered g input (run dp doF sliceReader pick n (Pipe input false)) := fun hser =>
    run_ordered sliceReader hu hser pick n _ hi0 (Pipe_ordered g input false)
  generalize run dp doF sliceReader pick n (Pipe input false) = c at hdone hinv hsd hord ⊢
  have hrd : c.rd = true := by
    cases h : c.rd with
    | true => rfl
    | false => simp [h, sliceReader] at hdone
  have hf := hsd hrd
  have hall := hinv.finished_all hf
  refine ⟨hrd, ?_, hall.2, ?_⟩
  · rw [hinv.closes, hf]
    rfl
  · intro hser
    have ho := (hord hser).order
    rwa [hall.1, List.append_nil] at ho

end PipeSlice

section PipeResults

variable {IN OUT : Type}

theorem PipeToSlice_eq (dp : PoolsPtr) (input : List IN) (doF : PoolsPtr → IN → Outcome OUT)
    (pick : Sched) (h : (run dp doF sliceReader pick (pipeFuel input.length 1)
      (Pipe input false)).rd = true) :
    PipeToSlice dp input doF pick =
      some (run dp doF sliceReader pick (pipeFuel input.length 1) (Pipe input false)).outLog := by
  simp [PipeToSlice, h]

/-- C4: on a stack that is absent, empty, or whose head is a pass-through marker or a pool of
capacity 1, the slice read from `Pipe(stack, in, f)` is `f(tail, x)` for the items `x` of the
input, in input order, under every scheduler. -/
theorem Pipe_serial_order (dp : PoolsPtr) (f : PoolsPtr → IN → OUT) (input : List IN)
    (pick : Sched)
    (h : ∀ pool, headPool dp = some pool →
      pool.cap = 1 ∧ pool.closed = false ∧ pool.nonblocking = false) :
    PipeToSlice dp input (pureTask f) pick = some (input.map (f (tailOf dp))) := by
  have hu : Usable dp (pureTask f) (f (tailOf dp)) :=
    usable_pureTask dp f (fun pool hp => ⟨(h pool hp).2.1, (h pool hp).2.2, by
      rw [(h pool hp).1]; exact Nat.one_pos⟩)
  have hser : Serial dp := serial_of_headPool dp (fun pool hp => by rw [(h pool hp).1])
  obtain ⟨hrd, _, _, hord⟩ := run_slice input hu pick _ (Nat.le_refl _)
  rw [PipeToSlice_eq dp input _ pick hrd, hord hser]

/-- C5: on a stack whose head is a pool of capacity at least 2, under every scheduler, the
values read from `Pipe(stack, in, f)` until it is closed are a permutation of `f(tail, x)` for
the items `x` of the input; in every configuration of every run `out` was closed at most once,
and if it was closed then `in` was closed, every item was taken, no task is running and every
result was received; at the end of the run `out` was closed once. -/
theorem Pipe_parallel_bag (dp : PoolsPtr) (f : PoolsPtr → IN → OUT) (input : List IN)
    (pick : Sched) (pool : Pool) (hp : headPool dp = some pool) (hcap : 2 ≤ pool.cap)
    (hcl : pool.closed = false) (hnb : pool.nonblocking = false) :
    (∃ out, PipeToSlice dp input (pureTask f) pick = some out ∧
      out.Perm (input.map (f (tailOf dp)))) ∧
    (run dp (pureTask f) sliceReader pick (pipeFuel input.length 1)
      (Pipe input false)).outCloses = 1 ∧
    (∀ n, (run dp (pureTask f) sliceReader pick n (Pipe input false)).outCloses ≤ 1 ∧
      (0 < (run dp (pureTask f) sliceReader pick n (Pipe input false)).outCloses →
        (run dp (pureTask f) sliceReader pick n (Pipe input false)).inClosed = true ∧
        (run dp (pureTask f) sliceReader pick n (Pipe input false)).src = [] ∧
        (run dp (pureTask f) sliceReader pick n (Pipe input false)).workers = [] ∧
        (run dp (pureTask f) sliceReader pick n (Pipe input false)).wg = 0 ∧
        (run dp (pureTask f) sliceReader pick n (Pipe input false)).outLog.Perm
          (input.map (f (tailOf dp))))) := by
  have hu : Usable dp (pureTask f) (f (tailOf dp)) :=
    usable_pureTask dp f (fun pool' hp' => by
      rw [hp] at hp'
      cases hp'
      exact ⟨hcl, hnb, by omega⟩)
  obtain ⟨hrd, hone, hperm, _⟩ := run_slice input hu pick _ (Nat.le_refl _)
  refine ⟨⟨_, PipeToSlice_eq dp input _ pick hrd, hperm⟩, hone, ?_⟩
  intro n
  have hinv := run_inv sliceReader hu pick n _
    (Pipe_inv dp (f (tailOf dp)) input false)
  generalize run dp (pureTask f) sliceReader pick n (Pipe input false) = c at hinv ⊢
  have hcl := hinv.closes
  cases hc : c.coord
  case finished =>
    have hall := hinv.finished_all hc
    have hlate := hinv.late (by rw [hc]; rfl)
    have hw := hinv.quiet hc
    have hwg := hinv.wg_eq
    rw [hc] at hcl
    rw [hw, hc] at hwg
    exact ⟨by rw [hcl]; exact Nat.le_refl 1, fun _ => ⟨hlate.1, hlate.2, hw, hwg, hall.2⟩⟩
  all_goals
    rw [hc] at hcl
    simp only [Coord.closes] at hcl
    rw [hcl]
    exact ⟨Nat.zero_le 1, fun h => absurd h (Nat.lt_irrefl 0)⟩

end PipeResults

section WrapRun

variable {Parent Child : Type} [TypeName Parent] [TypeName Child] {dp : PoolsPtr}
  {procs : PoolProcess Child} {g : Child → Child} {merge : Merge Parent Child} {p : Parent}
  {children : List Child}

theorem ranked_wrapReader (merge : Merge Parent Child) (p : Parent) :
    Ranked (wrapReader merge p) wrapRank := by
  refine ⟨?_, ?_⟩
  · intro s k v h
    cases s with
    | merging got =>
        simp only [wrapReader] at h
        split at h
        · cases h
          simp [leakCheck, wrapRank]
        · cases h
          simp [wrapRank]
    | checking result =>
        cases h
        simp [leakCheck, wrapRank]
    | done o => cases h
  · intro s k h
    cases s with
    | merging got =>
        simp only [wrapReader] at h
        split at h
        · cases h
          simp [leakCheck, wrapRank]
        · cases h
          simp [wrapRank]
    | checking result =>
        cases h
        simp [leakCheck, wrapRank]
    | done o => cases h

theorem WrapOK.mono {rd : WrapReader Parent Child} {log : List Child} {fin fin' : Prop}
    (h : WrapOK merge p rd log fin) (hf : fin → fin') : WrapOK merge p rd log fin' := by
  cases rd with
  | merging got => exact h
  | checking result => exact ⟨hf h.1, h.2⟩
  | done o =>
      rcases h with h | h
      · exact Or.inl ⟨hf h.1, h.2⟩
      · exact Or.inr h

/-- The reader receives the value `v` while the coordinator has not finished. -/
theorem WrapOK.value {rd : WrapReader Parent Child} {log : List Child} {fin fin' : Prop}
    (h : WrapOK merge p rd log fin) (hnf : ¬fin) {k : Option Child → WrapReader Parent Child}
    (hk : wrapReader merge p rd = some k) (v : Child) :
    WrapOK merge p (k (some v)) (log ++ [v]) fin' := by
  cases rd with
  | merging got =>
      obtain ⟨hgot, hspec⟩ := h
      subst hgot
      simp only [wrapReader] at hk
      split at hk
      · rename_i result hnext
        cases hk
        refine Or.inr (fun rest => ?_)
        rw [List.append_assoc, hspec]
        simp [wrapSpec, hnext]
      · rename_i hnext
        cases hk
        refine ⟨rfl, fun rest => ?_⟩
        rw [List.append_assoc, hspec]
        simp [wrapSpec, hnext]
  | checking result => exact absurd h.1 hnf
  | done o => cases hk

/-- The reader's receive reports the end of the stream: the coordinator has finished. -/
theorem WrapOK.closed {rd : WrapReader Parent Child} {log : List Child} {fin fin' : Prop}
    (h : WrapOK merge p rd log fin) (hf : fin') {k : Option Child → WrapReader Parent Child}
    (hk : wrapReader merge p rd = some k) : WrapOK merge p (k none) log fin' := by
  cases rd with
  | merging got =>
      obtain ⟨hgot, hspec⟩ := h
      subst hgot
      have h0 := hspec []
      rw [List.append_nil] at h0
      simp only [wrapReader] at hk
      split at hk
      · rename_i result hnext
        cases hk
        exact Or.inl ⟨hf, by rw [h0]; simp [wrapSpec, hnext]⟩
      · rename_i hnext
        cases hk
        exact ⟨hf, by rw [h0]; simp [wrapSpec, hnext]⟩
  | checking result =>
      cases hk
      exact Or.inl ⟨hf, h.2⟩
  | done o => cases hk

theorem Trans.wrapInv {c c' : Cfg Child Child (WrapReader Parent Child)}
    (h : Trans dp g (wrapReader merge p) c c') (hi : Inv dp g children c)
    (hw : WrapInv merge p c) : WrapInv merge p c' := by
  have hfin := h.finished
  unfold WrapInv at hw ⊢
  cases h with
  | recvCoord k r hk hc =>
      exact hw.value (by rw [hc]; intro h; cases h) hk r
  | recvWorker k i r hk hwk =>
      refine hw.value ?_ hk r
      intro hf
      have := get?_length_pos hwk
      rw [hi.quiet hf] at this
      simp at this
  | recvClosed k hk hpos =>
      refine hw.closed ?_ hk
      have h5 := hi.closes
      show c.coord = .finished
      cases hc : c.coord <;> simp_all [Coord.closes]
  | feed v rest hc hsrc => exact hw.mono hfin
  | closeIn hsrc hcl => exact hw.mono hfin
  | endRange hc hcl hsrc => exact hw.mono hfin
  | inlineRun v arg hc hs => exact hw.mono hfin
  | handOver v pool arg hc hs hlt => exact hw.mono hfin
  | coordDone hc => exact hw.mono hfin
  | close hc hwg => exact hw.mono hfin
  | workerDone i hwk => exact hw.mono hfin

/-- Every run of the system of `Wrap` ends like `wrapSpec` on some arrival order `xs` of the
results: a permutation of the results of the children, and the results in order when the head
of the stack is serial. -/
theorem run_wrap (merge : Merge Parent Child) (p : Parent) (children : List Child)
    (hu : Usable dp procs g) (pick : Sched) (n : Nat)
    (hn : pipeFuel children.length 2 ≤ n) :
    ∃ xs : List Child, xs.Perm (children.map g) ∧ (Serial dp → xs = children.map g) ∧
      wrapOutcome (run dp procs (wrapReader merge p) pick n (Pipe children (.merging []))) =
        wrapSpec merge p [] xs := by
  have hi0 : Inv dp g children
      (Pipe children (.merging []) : Cfg Child Child (WrapReader Parent Child)) :=
    Pipe_inv dp g children _
  have hm : (Pipe children (.merging []) :
      Cfg Child Child (WrapReader Parent Child)).measure wrapRank ≤ n := by
    simp only [Cfg.measure, Pipe, Coord.weight, wrapRank, pipeFuel] at hn ⊢
    simp
    omega
  have hdone := run_reader_done hu (ranked_wrapReader merge p) pick n _
    hi0 hm
  have hboth := run_preserves dp procs (wrapReader merge p)
    (fun c => Inv dp g children c ∧ WrapInv merge p c)
    (fun _ _ _ h hs => ⟨(step_trans hu hs).inv h.1, (step_trans hu hs).wrapInv h.1 h.2⟩)
    pick n (Pipe children (.merging [])) ⟨hi0, rfl, fun _ => rfl⟩
  have hord : Serial dp → Ordered g children
      (run dp procs (wrapReader merge p) pick n (Pipe children (.merging []))) := fun hser =>
    run_ordered (wrapReader merge p) hu hser pick n _ hi0 (Pipe_ordered g children _)
  generalize run dp procs (wrapReader merge p) pick n (Pipe children (.merging [])) = c
    at hdone hboth hord ⊢
  obtain ⟨hinv, hw⟩ := hboth
  unfold WrapInv at hw
  cases hrd : c.rd with
  | merging got =>
      rw [hrd] at hdone
      simp only [wrapReader] at hdone
      split at hdone <;> cases hdone
  | checking result =>
      rw [hrd] at hdone
      cases hdone
  | done o =>
      rw [hrd] at hw
      have hout : wrapOutcome c = o := by simp [wrapOutcome, hrd]
      rcases hw with ⟨hf, hspec⟩ | hspec
      · have hall := hinv.finished_all hf
        refine ⟨c.outLog, hall.2, ?_, by rw [hout, hspec]⟩
        intro hser
        have ho := (hord hser).order
        rwa [hall.1, List.append_nil] at ho
      · exact ⟨c.outLog ++ c.ahead g, hinv.conserve, fun hser => (hord hser).order,
          by rw [hout, hspec]⟩

end WrapRun

section WrapSpec

variable {Parent Child : Type} [TypeName Parent] [TypeName Child]
  {merge : Merge Parent Child} {p : Parent}

/-- A merge that receives until the end of the stream returns `atEnd` of all the results. -/
theorem wrapSpec_drain (hdrain : ∀ got, merge.next p got = none) (got rest : List Child) :
    wrapSpec merge p got rest = .returned (merge.atEnd p (got ++ rest)) := by
  induction rest generalizing got with
  | nil => simp [wrapSpec, hdrain]
  | cons x rest ih =>
      rw [wrapSpec, hdrain got]
      simp only
      rw [ih]
      simp

/-- A merge that returns before it has received every result makes `Wrap` panic. -/
theorem wrapSpec_short (merge : Merge Parent Child) (p : Parent) (got rest : List Child)
    (h : ∃ m, m < rest.length ∧ (merge.next p (got ++ rest.take m)).isSome = true) :
    wrapSpec merge p got rest = .panicked (.msg (leakMessage Parent Child)) := by
  induction rest generalizing got with
  | nil =>
      obtain ⟨m, hm, _⟩ := h
      simp at hm
  | cons x rest ih =>
      obtain ⟨m, hm, hsome⟩ := h
      rw [wrapSpec]
      cases hnext : merge.next p got with
      | some r => rfl
      | none =>
          simp only
          apply ih
          cases m with
          | zero => simp [hnext] at hsome
          | succ j =>
              refine ⟨j, by simpa using hm, ?_⟩
              simpa using hsome

/-- A merge that receives every result makes `Wrap` return what the merge returns. -/
theorem wrapSpec_full (merge : Merge Parent Child) (p : Parent) (got rest : List Child)
    (h : ∀ k, k < rest.length → merge.next p (got ++ rest.take k) = none) :
    wrapSpec merge p got rest =
      .returned ((merge.next p (got ++ rest)).getD (merge.atEnd p (got ++ rest))) := by
  induction rest generalizing got with
  | nil =>
      rw [wrapSpec]
      cases hnext : merge.next p got <;> simp [hnext]
  | cons x rest ih =>
      have h0 := h 0 (by simp)
      simp only [List.take_zero, List.append_nil] at h0
      rw [wrapSpec, h0]
      simp only
      rw [ih]
      · simp
      · intro k hk
        have := h (k + 1) (by simpa using hk)
        simpa using this

theorem WrapCall_valid (procs : PoolProcess Child) (d : Dispatch Parent Child)
    (split : Split Parent Child) (hs : d.split = some split) (hm : d.merge = some merge)
    (pick : Sched) (dp : PoolsPtr) :
    WrapCall procs d pick dp p =
      ⟨wrapOutcome (run dp procs (wrapReader merge p) pick (pipeFuel (split p).length 2)
          (Pipe (split p) (.merging []))), 2, 1, 1,
        (run dp procs (wrapReader merge p) pick (pipeFuel (split p).length 2)
          (Pipe (split p) (.merging []))).log.length⟩ := by
  have hv : d.Validate = none := (Validate_eq_none_iff d).2 ⟨by simp [hs], by simp [hm]⟩
  simp only [WrapCall, hv, hs, hm]

/-- The call of a wrapped process with a valid dispatch and a child that returns the value of
`child` ends like `wrapSpec` on some arrival order of the results of the children. -/
theorem Wrap_eq_wrapSpec (child : PoolsPtr → Child → Child) (d : Dispatch Parent Child)
    (split : Split Parent Child) (hs : d.split = some split) (hm : d.merge = some merge)
    (pick : Sched) (dp : PoolsPtr)
    (hp : ∀ pool, headPool dp = some pool →
      pool.closed = false ∧ pool.nonblocking = false ∧ 0 < pool.cap) :
    ∃ xs : List Child, xs.Perm ((split p).map (child (tailOf dp))) ∧
      (headPool dp = none → xs = (split p).map (child (tailOf dp))) ∧
      Wrap (pureTask child) d pick dp p = wrapSpec merge p [] xs := by
  have hu := usable_pureTask dp child hp
  obtain ⟨xs, hperm, hord, hout⟩ :=
    run_wrap merge p (split p) hu pick _ (Nat.le_refl _)
  refine ⟨xs, hperm, ?_, ?_⟩
  · intro hh
    exact hord (serial_of_headPool dp (fun pool hpool => by rw [hh] at hpool; cases hpool))
  · rw [← hout]
    simp only [Wrap, WrapCall_valid (pureTask child) d split hs hm pick dp]

end WrapSpec

section WrapResults

variable {Parent Child : Type} [TypeName Parent] [TypeName Child]

/-- C3: for a valid dispatch whose merge receives until the end of the stream, the wrapped
process returns, under every scheduler, the value the merge returns on `results`, where
`results` are `child(tail, c)` for the children `c` sent by `split(parent)`, in some order,
and in the order of emission when the stack is absent, empty or headed by a pass-through
marker. -/
theorem Wrap_returns_merge (child : PoolsPtr → Child → Child) (d : Dispatch Parent Child)
    (split : Split Parent Child) (merge : Merge Parent Child) (hs : d.split = some split)
    (hm : d.merge = some merge) (pick : Sched) (dp : PoolsPtr) (p : Parent)
    (hp : ∀ pool, headPool dp = some pool →
      pool.closed = false ∧ pool.nonblocking = false ∧ 0 < pool.cap)
    (hdrain : ∀ got, merge.next p got = none) :
    ∃ results : List Child, results.Perm ((split p).map (child (tailOf dp))) ∧
      (headPool dp = none → results = (split p).map (child (tailOf dp))) ∧
      Wrap (pureTask child) d pick dp p = .returned (merge.atEnd p results) := by
  obtain ⟨xs, hperm, hord, hw⟩ := Wrap_eq_wrapSpec (p := p) child d split hs hm pick dp hp
  refine ⟨xs, hperm, hord, ?_⟩
  rw [hw, wrapSpec_drain hdrain]
  simp

/-- C1: when, in whatever order the results of the `N` children arrive, the merge returns
after it has received only `m < N` of them, the call of the wrapped process panics, under
every scheduler, with the message
"invalid dispatcher merge <child type> into <parent type>, leaked goroutine". -/
theorem Wrap_leak_panics (child : PoolsPtr → Child → Child) (d : Dispatch Parent Child)
    (split : Split Parent Child) (merge : Merge Parent Child) (hs : d.split = some split)
    (hm : d.merge = some merge) (pick : Sched) (dp : PoolsPtr) (p : Parent)
    (hp : ∀ pool, headPool dp = some pool →
      pool.closed = false ∧ pool.nonblocking = false ∧ 0 < pool.cap)
    (hshort : ∀ xs : List Child, xs.Perm ((split p).map (child (tailOf dp))) →
      ∃ m, m < xs.length ∧ (merge.next p (xs.take m)).isSome = true) :
    Wrap (pureTask child) d pick dp p =
      .panicked (.msg ("invalid dispatcher merge " ++ TypeName.name Child ++ " into " ++
        TypeName.name Parent ++ ", leaked goroutine")) := by
  obtain ⟨xs, hperm, _, hw⟩ := Wrap_eq_wrapSpec (p := p) child d split hs hm pick dp hp
  rw [hw, wrapSpec_short merge p [] xs (by simpa using hshort xs hperm)]
  rfl

/-- C2: when `split` sends `N` children (`N` may be 0) and, in whatever order the results
arrive, the merge receives all `N` of them, `Wrap(identity, dispatch)` returns under every
scheduler and does not raise the panic of the leak check, whether the merge returns after the
`N`-th result or receives until the end of the stream. -/
theorem Wrap_identity_conserves (d : Dispatch Parent Child) (split : Split Parent Child)
    (merge : Merge Parent Child) (hs : d.split = some split) (hm : d.merge = some merge)
    (pick : Sched) (dp : PoolsPtr) (p : Parent)
    (hp : ∀ pool, headPool dp = some pool →
      pool.closed = false ∧ pool.nonblocking = false ∧ 0 < pool.cap)
    (hall : ∀ xs : List Child, xs.Perm (split p) →
      ∀ k, k < xs.length → merge.next p (xs.take k) = none) :
    (∃ xs : List Child, xs.Perm (split p) ∧
      Wrap identity d pick dp p =
        .returned ((merge.next p xs).getD (merge.atEnd p xs))) ∧
    Wrap identity d pick dp p ≠ .panicked (.msg (leakMessage Parent Child)) := by
  obtain ⟨xs, hperm, _, hw⟩ :=
    Wrap_eq_wrapSpec (p := p) (fun _ b => b) d split hs hm pick dp hp
  have hperm' : xs.Perm (split p) := by simpa using hperm
  have hid : (identity : PoolProcess Child) = pureTask (fun _ b => b) := rfl
  have hfull := wrapSpec_full merge p [] xs
    (by simpa using hall xs hperm')
  rw [hid, hw, hfull]
  refine ⟨⟨xs, hperm', by simp⟩, ?_⟩
  intro h
  cases h

end WrapResults

section Revalidate

variable {Parent Child : Type} [TypeName Parent] [TypeName Child]

/-- A step leaves the reader where it is, or moves it along its current receive. -/
theorem step_rd {IN OUT ρ : Type} {dp : PoolsPtr} {doF : PoolsPtr → IN → Outcome OUT}
    {rk : Reader OUT ρ} {c c' : Cfg IN OUT ρ} {a : Act} (h : step dp doF rk c a = some c') :
    c'.rd = c.rd ∨ ∃ k o, rk c.rd = some k ∧ c'.rd = k o := by
  unfold step at h
  split at h
  · cases h
  · cases a with
    | feed =>
        simp only at h
        split at h <;> cases h
        exact Or.inl rfl
    | closeIn =>
        simp only at h
        split at h <;> cases h
        exact Or.inl rfl
    | coord =>
        simp only at h
        unfold coordStep at h
        repeat' split at h
        all_goals first | cases h; exact Or.inl rfl | cases h
    | workerDone i =>
        simp only at h
        split at h <;> cases h
        exact Or.inl rfl
    | recvCoord =>
        simp only at h
        split at h
        · rename_i k r hk hc
          cases h
          exact Or.inr ⟨k, some r, hk, rfl⟩
        · cases h
    | recvWorker i =>
        simp only at h
        split at h
        · rename_i k r hk hw
          cases h
          exact Or.inr ⟨k, some r, hk, rfl⟩
        · cases h
    | recvClosed =>
        simp only at h
        split at h
        · rename_i k hk
          split at h
          · cases h
            exact Or.inr ⟨k, none, hk, rfl⟩
          · cases h
        · cases h

theorem wrapReader_endsByCheck (merge : Merge Parent Child) (p : Parent)
    (rd : WrapReader Parent Child) (k : Option Child → WrapReader Parent Child)
    (hk : wrapReader merge p rd = some k) (o : Option Child) : EndsByCheck (k o) := by
  have hleak : ∀ result : Parent, EndsByCheck (leakCheck result o : WrapReader Parent Child) := by
    intro result o' ho
    cases o with
    | none =>
        simp only [leakCheck, WrapReader.done.injEq] at ho
        exact Or.inl ⟨result, ho.symm⟩
    | some v =>
        simp only [leakCheck, WrapReader.done.injEq] at ho
        exact Or.inr ho.symm
  cases rd with
  | merging got =>
      simp only [wrapReader] at hk
      split at hk
      · cases hk
        exact hleak _
      · cases hk
        intro o' ho
        cases o <;> cases ho
  | checking result =>
      cases hk
      exact hleak _
  | done o' => cases hk

/-- C9: building the wrapped process cannot fail (`Wrap` is a function); the call of a process
wrapped around a dispatch without `split` or without `merge` panics with an error that wraps
`ErrInvalidDispatcher`, having made no channel and called neither `split`, `merge` nor the
child; the call of a process wrapped around a valid dispatch passes the validation: it makes
its two channels, calls `split` and `merge`, and does not end by a panic with an error. -/
theorem Wrap_revalidates (procs : PoolProcess Child) (d : Dispatch Parent Child)
    (pick : Sched) (dp : PoolsPtr) (p : Parent) :
    ((d.split = none ∨ d.merge = none) →
      ∃ e, e.is ErrInvalidDispatcher = true ∧
        WrapCall procs d pick dp p = ⟨.panicked (.err e), 0, 0, 0, 0⟩ ∧
        Wrap procs d pick dp p = .panicked (.err e)) ∧
    (d.split.isSome = true → d.merge.isSome = true →
      d.Validate = none ∧
      (WrapCall procs d pick dp p).streams = 2 ∧
      (WrapCall procs d pick dp p).splitCalls = 1 ∧
      (WrapCall procs d pick dp p).mergeCalls = 1 ∧
      ∀ e, Wrap procs d pick dp p ≠ .panicked (.err e)) := by
  constructor
  · intro h
    have hv : d.Validate = some (.wrapf ErrInvalidDispatcher (TypeName.name Parent)
        (TypeName.name Child) d.split.isNone d.merge.isNone) := by
      unfold Dispatch.Validate
      rcases h with h | h <;> simp [h]
    refine ⟨.wrapf ErrInvalidDispatcher (TypeName.name Parent) (TypeName.name Child)
      d.split.isNone d.merge.isNone, is_ErrInvalidDispatcher_wrapf _ _ _ _, ?_, ?_⟩
    · simp only [WrapCall, hv]
    · simp only [Wrap, WrapCall, hv]
  · intro hs hm
    obtain ⟨split, hs⟩ := Option.isSome_iff_exists.1 hs
    obtain ⟨merge, hm⟩ := Option.isSome_iff_exists.1 hm
    have hv : d.Validate = none := (Validate_eq_none_iff d).2 ⟨by simp [hs], by simp [hm]⟩
    have hcall := WrapCall_valid (p := p) procs d split hs hm pick dp
    refine ⟨hv, by rw [hcall], by rw [hcall], by rw [hcall], ?_⟩
    intro e
    have hend := run_preserves dp procs (wrapReader merge p)
      (fun c => EndsByCheck c.rd)
      (fun c a c' hc hstep => by
        rcases step_rd hstep with h | ⟨k, o, hk, h⟩
        · show EndsByCheck c'.rd
          rw [h]
          exact hc
        · show EndsByCheck c'.rd
          rw [h]
          exact wrapReader_endsByCheck merge p c.rd k hk o)
      pick (pipeFuel (split p).length 2) (Pipe (split p) (.merging []))
      (by intro o ho; cases ho)
    simp only [Wrap, hcall]
    generalize run dp procs (wrapReader merge p) pick (pipeFuel (split p).length 2)
      (Pipe (split p) (.merging [])) = c at hend
    intro hout
    unfold wrapOutcome at hout
    cases hrd : c.rd with
    | done o =>
        rw [hrd] at hout
        simp only at hout
        rcases hend o hrd with ⟨r, hr⟩ | hr
        · rw [hr] at hout
          cases hout
        · rw [hr] at hout
          cases hout
    | merging got =>
        rw [hrd] at hout
        simp only at hout
        split at hout <;> cases hout
    | checking result =>
        rw [hrd] at hout
        simp only at hout
        split at hout <;> cases hout

end Revalidate

section Transparency

theorem passive_how (dp : PoolsPtr) (h : Passive dp) :
    (submit dp).how = .inline (tailOf dp) ∧ Passive (tailOf dp) ∧ headPool dp = none := by
  match dp, h with
  | none, _ =>
      refine ⟨rfl, ?_, rfl⟩
      intro ps h
      cases h
  | some ⟨[]⟩, h =>
      refine ⟨rfl, ?_, rfl⟩
      exact h
  | some ⟨none :: rest⟩, h =>
      refine ⟨rfl, ?_, rfl⟩
      intro ps hps e he
      cases hps
      exact h _ rfl e (List.mem_cons_of_mem _ he)
  | some ⟨some pool :: rest⟩, h =>
      have := h _ rfl (some pool) (List.mem_cons_self _ _)
      cases this

theorem usable_passive {IN OUT : Type} (dp : PoolsPtr) (h : Passive dp)
    (doF : PoolsPtr → IN → Outcome OUT) (g : IN → OUT)
    (hg : ∀ v, doF (tailOf dp) v = .returned (g v)) : Usable dp doF g := by
  obtain ⟨hs, _, _⟩ := passive_how dp h
  refine ⟨?_, ?_⟩
  · intro arg ha v
    rw [hs] at ha
    cases ha
    exact hg v
  · intro pool arg ha
    rw [hs] at ha
    cases ha

theorem serial_passive (dp : PoolsPtr) (h : Passive dp) : Serial dp := by
  intro pool arg hs
  rw [(passive_how dp h).1] at hs
  cases hs

/-- A composed process returns on every stack without pool, and what it returns does not
depend on the stack. -/
theorem Composed.passive {T : Type} {q : PoolProcess T} (hq : Composed q) :
    ∃ g : T → T, ∀ dp, Passive dp → ∀ x, q dp x = .returned (g x) := by
  induction hq with
  | leaf f => exact ⟨f, fun _ _ _ => rfl⟩
  | link procs _ ih =>
      induction procs with
      | nil => exact ⟨id, fun _ _ _ => rfl⟩
      | cons q rest ihl =>
          obtain ⟨g, hg⟩ := ih q (List.mem_cons_self _ _)
          obtain ⟨gr, hgr⟩ := ihl (fun q' hq' => by
            rename_i hall
            exact hall q' (List.mem_cons_of_mem _ hq'))
            (fun q' hq' => ih q' (List.mem_cons_of_mem _ hq'))
          refine ⟨fun x => gr (g x), fun dp hdp x => ?_⟩
          have := hgr dp hdp (g x)
          simp only [Link, List.foldl_cons, Outcome.andThen, hg dp hdp] at this ⊢
          exact this
  | wrap child d split merge pick _ hs hm hdrain ih =>
      rename_i Parent Child _ _
      obtain ⟨g, hg⟩ := ih
      refine ⟨fun p => merge.atEnd p ((split p).map g), fun dp hdp p => ?_⟩
      obtain ⟨_, htail, _⟩ := passive_how dp hdp
      have hu : Usable dp child g := usable_passive dp hdp child g (hg _ htail)
      obtain ⟨xs, _, hord, hout⟩ :=
        run_wrap merge p (split p) hu pick _ (Nat.le_refl _)
      simp only [Wrap, WrapCall_valid child d split hs hm pick dp, hout,
        hord (serial_passive dp hdp), wrapSpec_drain (hdrain p)]
      simp

/-- The log of a finished run holds one entry for each item of the input. -/
theorem Inv.finished_log {IN OUT ρ : Type} {dp : PoolsPtr} {g : IN → OUT} {input : List IN}
    {c : Cfg IN OUT ρ} (hi : Inv dp g input c) (hf : c.coord = .finished) :
    c.log = List.replicate input.length (submit dp).how := by
  have hsrc := (hi.late (by rw [hf]; rfl)).2
  have hlen := hi.log_len
  simp only [hf, Coord.queued, hsrc, List.length_nil, Nat.add_zero] at hlen
  rw [← hlen]
  exact List.eq_replicate_of_mem hi.log_how

/-- `Pipe` over a stack without pool: the slice read is the process applied to each item, and
every task was run in the coordinator. -/
theorem Pipe_passive {T : Type} (q : PoolProcess T) (hq : Composed q) (input : List T)
    (dp : PoolsPtr) (hdp : Passive dp) (pick : Sched) :
    ∃ out : List T, PipeToSlice dp input q pick = some out ∧
      out.map Outcome.returned = applyDirect q input ∧
      PipeLog dp input q pick = List.replicate input.length (.inline (tailOf dp)) := by
  obtain ⟨g, hg⟩ := hq.passive
  obtain ⟨hhow, htail, _⟩ := passive_how dp hdp
  have hu : Usable dp q g := usable_passive dp hdp q g (hg _ htail)
  obtain ⟨hrd, _, _, hord⟩ := run_slice input hu pick _ (Nat.le_refl _)
  refine ⟨input.map g, ?_, ?_, ?_⟩
  · rw [PipeToSlice_eq dp input q pick hrd, hord (serial_passive dp hdp)]
  · simp only [applyDirect, List.map_map]
    apply List.map_congr_left
    intro x _
    exact (hg none (by intro ps h; cases h) x).symm
  · have hinv := run_inv sliceReader hu pick (pipeFuel input.length 1) _
      (Pipe_inv dp g input false)
    have hsd := run_preserves dp q sliceReader
      (fun c => Inv dp g input c ∧ SliceDone c)
      (fun _ _ _ h hs => ⟨(step_trans hu hs).inv h.1, (step_trans hu hs).sliceDone h.1 h.2⟩)
      pick (pipeFuel input.length 1) (Pipe input false)
      ⟨Pipe_inv dp g input false, by intro h; cases h⟩
    rw [PipeLog, hinv.finished_log (hsd.2 hrd), hhow]

/-- C7: for a process composed of lifted processes with `Link` and `Wrap` (valid dispatches
whose merge receives until the end of the stream), `Pipe` over the nil stack, over the empty
stack and over a stack of `n` pass-through markers read, under every scheduler, the same
slice: the process applied to each item of the input in turn with no pool; and each of the
three runs every task in the coordinator. -/
theorem Pipe_passive_transparent {T : Type} (q : PoolProcess T) (hq : Composed q)
    (input : List T) (n : Nat) (pick₁ pick₂ pick₃ : Sched) :
    ∃ out : List T, out.map Outcome.returned = applyDirect q input ∧
      PipeToSlice none input q pick₁ = some out ∧
      PipeToSlice (some ⟨[]⟩) input q pick₂ = some out ∧
      PipeToSlice (some ⟨List.replicate n none⟩) input q pick₃ = some out ∧
      (∀ e ∈ PipeLog none input q pick₁, ∃ arg, e = Submission.inline arg) ∧
      (∀ e ∈ PipeLog (some ⟨[]⟩) input q pick₂, ∃ arg, e = Submission.inline arg) ∧
      (∀ e ∈ PipeLog (some ⟨List.replicate n none⟩) input q pick₃,
        ∃ arg, e = Submission.inline arg) ∧
      (PipeLog none input q pick₁).length = input.length ∧
      (PipeLog (some ⟨[]⟩) input q pick₂).length = input.length ∧
      (PipeLog (some ⟨List.replicate n none⟩) input q pick₃).length = input.length := by
  have hp1 : Passive none := by intro ps h; cases h
  have hp2 : Passive (some ⟨[]⟩) := by
    intro ps h e he
    cases h
    simp at he
  have hp3 : Passive (some ⟨List.replicate n none⟩) := by
    intro ps h e he
    cases h
    exact (List.mem_replicate.1 he).2
  obtain ⟨o1, h1, d1, l1⟩ := Pipe_passive q hq input none hp1 pick₁
  obtain ⟨o2, h2, d2, l2⟩ := Pipe_passive q hq input _ hp2 pick₂
  obtain ⟨o3, h3, d3, l3⟩ := Pipe_passive q hq input _ hp3 pick₃
  have inj : ∀ a b : List T, a.map Outcome.returned = b.map Outcome.returned → a = b :=
    fun a b h => List.map_injective_iff.2 (fun x y hxy => by cases hxy; rfl) h
  have e2 : o2 = o1 := inj _ _ (by rw [d1, d2])
  have e3 : o3 = o1 := inj _ _ (by rw [d1, d3])
  rw [e2] at h2
  rw [e3] at h3
  refine ⟨o1, d1, h1, h2, h3, ?_, ?_, ?_, ?_, ?_, ?_⟩
  · intro e he
    rw [l1] at he
    exact ⟨_, (List.mem_replicate.1 he).2⟩
  · intro e he
    rw [l2] at he
    exact ⟨_, (List.mem_replicate.1 he).2⟩
  · intro e he
    rw [l3] at he
    exact ⟨_, (List.mem_replicate.1 he).2⟩
  · rw [l1, List.length_replicate]
  · rw [l2, List.length_replicate]
  · rw [l3, List.length_replicate]

end Transparency

/-! ## The theorems on the inputs of the tests -/

section Instances

theorem Wrap_leak_panics_witness :
    Wrap (pureTask (fun _ c => c)) leakyDispatch (fun n => n) (some ⟨[some (freshPool 0 2)]⟩)
      (10 : Int) =
      .panicked (.msg "invalid dispatcher merge int into int, leaked goroutine") :=
  Wrap_leak_panics (fun _ c => c) leakyDispatch (fun p => [p, p]) firstMerge rfl rfl
    (fun n => n) (some ⟨[some (freshPool 0 2)]⟩) 10
    (by
      intro pool h
      cases h
      exact ⟨rfl, rfl, by decide⟩)
    (by
      intro xs hx
      have hl : xs.length = 2 := by simpa using hx.length_eq
      match xs, hl with
      | [a, b], _ => exact ⟨1, by simp, rfl⟩)

theorem Wrap_identity_conserves_witness :
    (∃ xs : List Int, xs.Perm [10, 11] ∧
      Wrap identity sumDispatch (fun n => n) (some ⟨[some (freshPool 0 1), none]⟩) 10 =
        .returned ((sumMerge.next 10 xs).getD (sumMerge.atEnd 10 xs))) ∧
    Wrap identity sumDispatch (fun n => n) (some ⟨[some (freshPool 0 1), none]⟩) 10 ≠
      .panicked (.msg (leakMessage Int Int)) :=
  Wrap_identity_conserves sumDispatch (fun p => [p, p + 1]) sumMerge rfl rfl (fun n => n)
    (some ⟨[some (freshPool 0 1), none]⟩) 10
    (by
      intro pool h
      cases h
      exact ⟨rfl, rfl, by decide⟩)
    (fun _ _ _ _ => rfl)

theorem Wrap_returns_merge_witness :
    Wrap (pureTask (fun _ c => c)) sumDispatch (fun n => 5 * n) (some ⟨[some (freshPool 0 2)]⟩)
      (10 : Int) = .returned 21 ∧
    Wrap (pureTask (fun _ c => c)) twinDispatch (fun n => n) (some ⟨[]⟩) (10 : Int) =
      .returned 20 := by
  obtain ⟨results, hperm, _, hw⟩ :=
    Wrap_returns_merge (fun _ c => c) sumDispatch (fun p => [p, p + 1]) sumMerge rfl rfl
      (fun n => 5 * n) (some ⟨[some (freshPool 0 2)]⟩) (10 : Int)
      (by
        intro pool h
        cases h
        exact ⟨rfl, rfl, by decide⟩)
      (fun _ => rfl)
  obtain ⟨results₂, _, hord, hw₂⟩ :=
    Wrap_returns_merge (fun _ c => c) twinDispatch (fun p => [p, p]) sumMerge rfl rfl
      (fun n => n) (some ⟨[]⟩) (10 : Int)
      (by
        intro pool h
        cases h)
      (fun _ => rfl)
  rw [hw, hw₂, hord rfl]
  have : results.sum = 21 := by
    rw [hperm.sum_eq]
    decide
  simp [sumMerge, this]

theorem Pipe_serial_order_witness :
    PipeToSlice (some ⟨[none]⟩) [1, 2, 3] (pureTask inc) (fun n => n) = some [2, 3, 4] ∧
    PipeToSlice (some ⟨[some (freshPool 0 1), some (freshPool 1 1)]⟩)
      [0, 1, 2, 3, 4, 5, 6, 7, 8, 9] (pureTask inc) (fun n => 7 * n + 3) =
      some [1, 2, 3, 4, 5, 6, 7, 8, 9, 10] :=
  ⟨Pipe_serial_order (some ⟨[none]⟩) inc [1, 2, 3] (fun n => n)
    (by
      intro pool h
      cases h),
   Pipe_serial_order (some ⟨[some (freshPool 0 1), some (freshPool 1 1)]⟩) inc
    [0, 1, 2, 3, 4, 5, 6, 7, 8, 9] (fun n => 7 * n + 3)
    (by
      intro pool h
      cases h
      exact ⟨rfl, rfl, rfl⟩)⟩

theorem Pipe_parallel_bag_witness :
    ∃ out, PipeToSlice (some ⟨[some (freshPool 0 10)]⟩) [0, 1, 2, 3, 4, 5, 6, 7, 8, 9]
        (pureTask inc) (fun n => 3 * n) = some out ∧
      out.Perm [1, 2, 3, 4, 5, 6, 7, 8, 9, 10] :=
  (Pipe_parallel_bag (some ⟨[some (freshPool 0 10)]⟩) inc [0, 1, 2, 3, 4, 5, 6, 7, 8, 9]
    (fun n => 3 * n) (freshPool 0 10) rfl (by decide) rfl rfl).1

theorem sumThenDouble_composed : Composed sumThenDouble := by
  apply Composed.link
  intro q hq
  simp only [List.mem_cons, List.mem_singleton, List.not_mem_nil, or_false] at hq
  rcases hq with rfl | rfl
  · exact Composed.wrap identity sumDispatch (fun p => [p, p + 1]) sumMerge (fun _ => 0)
      (Composed.leaf (fun b => b)) rfl rfl (fun _ _ => rfl)
  · exact Composed.leaf _

theorem Pipe_passive_transparent_witness :
    ∃ out : List Int, out.map Outcome.returned = applyDirect sumThenDouble [10, 20] ∧
      PipeToSlice none [10, 20] sumThenDouble (fun n => n) = some out ∧
      PipeToSlice (some ⟨[]⟩) [10, 20] sumThenDouble (fun n => 2 * n) = some out ∧
      PipeToSlice (some ⟨List.replicate 3 none⟩) [10, 20] sumThenDouble (fun _ => 0) =
        some out := by
  obtain ⟨out, h0, h1, h2, h3, _⟩ :=
    Pipe_passive_transparent sumThenDouble sumThenDouble_composed [10, 20] 3
      (fun n => n) (fun n => 2 * n) (fun _ => 0)
  exact ⟨out, h0, h1, h2, h3⟩

theorem NewPoolsWithOptions_failure_witness :
    (NewPoolsWithOptions failSecond ([2, 0] ++ 3 :: [4]) () ⟨[], []⟩).pools = none ∧
    (NewPoolsWithOptions failSecond ([2, 0] ++ 3 :: [4]) () ⟨[], []⟩).err =
      some (.ants 7) ∧
    (NewPoolsWithOptions failSecond ([2, 0] ++ 3 :: [4]) () ⟨[], []⟩).world.created =
      [2, 3] ∧
    (NewPoolsWithOptions failSecond ([2, 0] ++ 3 :: [4]) () ⟨[], []⟩).world.released =
      [freshPool 0 2] := by
  obtain ⟨h1, h2, h3, h4, _⟩ :=
    NewPoolsWithOptions_failure failSecond () ⟨[], []⟩ [2, 0] [4] 3 (.ants 7) (by decide)
      (by
        intro i hi
        have : i = 0 := by
          simp at hi
          omega
        subst this
        exact ⟨freshPool 0 2, rfl⟩)
      rfl
  exact ⟨h1, h2, h3, h4⟩

end Instances

/-! ## The stack built by `NewPoolsWithOptions` -/

section Shape

theorem foldl_buildStep_shape {Opts : Type} (newPool : NewPoolFn Opts) (opts : Opts)
    (sizes : List Int) (w : World) (acc : List (Option Pool))
    (hok : ∀ i, i < (sizes.filter (· ≠ 0)).length →
      ∃ pool, newPool (w.created.length + i) ((sizes.filter (· ≠ 0)).getD i 0) opts =
        .ok pool) :
    ∃ entries : List (Option Pool),
      sizes.foldl (buildStep newPool opts) ⟨none, w, acc⟩ =
        ⟨none, ⟨w.created ++ sizes.filter (· ≠ 0), w.released⟩, acc ++ entries⟩ ∧
      entries.length = sizes.length ∧
      (∀ i : Nat, sizes[i]? = some 0 → entries[i]? = some none) ∧
      (∀ (i : Nat) (s : Int), sizes[i]? = some s → s ≠ 0 →
        ∃ pool, entries[i]? = some (some pool) ∧
          newPool (w.created.length + ((sizes.take i).filter (· ≠ 0)).length) s opts =
            .ok pool) := by
  induction sizes generalizing w acc with
  | nil => exact ⟨[], by simp, rfl, by simp, by simp⟩
  | cons s rest ih =>
      by_cases hs : s = 0
      · subst hs
        have hok' : ∀ i, i < (rest.filter (· ≠ 0)).length →
            ∃ pool, newPool (w.created.length + i) ((rest.filter (· ≠ 0)).getD i 0) opts =
              .ok pool := by
          simpa using hok
        obtain ⟨entries, h1, h2, h3, h4⟩ := ih w (acc ++ [none]) hok'
        refine ⟨none :: entries, ?_, by simp [h2], ?_, ?_⟩
        · simp only [List.foldl_cons]
          have : buildStep newPool opts ⟨none, w, acc⟩ 0 = ⟨none, w, acc ++ [none]⟩ := by
            simp [buildStep]
          rw [this, h1]
          simp
        · intro i hi
          cases i with
          | zero => simp
          | succ j =>
              simp only [List.getElem?_cons_succ] at hi ⊢
              exact h3 j hi
        · intro i t hi ht
          cases i with
          | zero =>
              simp only [List.getElem?_cons_zero, Option.some.injEq] at hi
              exact absurd hi.symm ht
          | succ j =>
              simp only [List.getElem?_cons_succ] at hi ⊢
              obtain ⟨pool, hp1, hp2⟩ := h4 j t hi ht
              exact ⟨pool, hp1, by simpa using hp2⟩
      · have hf : (s :: rest).filter (· ≠ 0) = s :: rest.filter (· ≠ 0) := by
          simp [hs]
        rw [hf] at hok
        obtain ⟨pool, hpool⟩ := hok 0 (by simp)
        simp only [Nat.add_zero, List.getD_cons_zero] at hpool
        have hok' : ∀ i, i < (rest.filter (· ≠ 0)).length →
            ∃ pool, newPool ((w.created ++ [s]).length + i)
              ((rest.filter (· ≠ 0)).getD i 0) opts = .ok pool := by
          intro i hi
          have := hok (i + 1) (by simpa using hi)
          simpa [Nat.add_assoc, Nat.add_comm 1 i] using this
        obtain ⟨entries, h1, h2, h3, h4⟩ :=
          ih ⟨w.created ++ [s], w.released⟩ (acc ++ [some pool]) hok'
        refine ⟨some pool :: entries, ?_, by simp [h2], ?_, ?_⟩
        · simp only [List.foldl_cons]
          have : buildStep newPool opts ⟨none, w, acc⟩ s =
              ⟨none, ⟨w.created ++ [s], w.released⟩, acc ++ [some pool]⟩ := by
            simp only [buildStep, ne_eq, hs, not_false_eq_true, if_true]
            rw [hpool]
          rw [this, h1, hf]
          simp
        · intro i hi
          cases i with
          | zero =>
              simp only [List.getElem?_cons_zero, Option.some.injEq] at hi
              exact absurd hi hs
          | succ j =>
              simp only [List.getElem?_cons_succ] at hi ⊢
              exact h3 j hi
        · intro i t hi ht
          cases i with
          | zero =>
              simp only [List.getElem?_cons_zero, Option.some.injEq] at hi
              subst hi
              exact ⟨pool, by simp, by simpa using hpool⟩
          | succ j =>
              simp only [List.getElem?_cons_succ] at hi ⊢
              obtain ⟨pool', hp1, hp2⟩ := h4 j t hi ht
              refine ⟨pool', hp1, ?_⟩
              have e : ((s :: rest).take (j + 1)).filter (· ≠ 0) =
                  s :: (rest.take j).filter (· ≠ 0) := by simp [hs]
              rw [e]
              simpa [Nat.add_assoc, Nat.add_comm 1] using hp2

/-- C11: when every pool creation succeeds, `NewPoolsWithOptions` returns no error and a
stack with one level for each size, in order: the level `i` is a pass-through marker exactly
when `sizes[i] = 0`, and otherwise the pool `ants.NewPool` returned for `sizes[i]`; no pool is
created for a zero size, and the empty list of sizes gives the empty stack. -/
theorem NewPoolsWithOptions_shape {Opts : Type} (newPool : NewPoolFn Opts) (opts : Opts)
    (w : World) (sizes : List Int)
    (hok : ∀ i, i < (sizes.filter (· ≠ 0)).length →
      ∃ pool, newPool (w.created.length + i) ((sizes.filter (· ≠ 0)).getD i 0) opts =
        .ok pool) :
    ∃ entries : List (Option Pool),
      (NewPoolsWithOptions newPool sizes opts w).pools = some ⟨entries⟩ ∧
      (NewPoolsWithOptions newPool sizes opts w).err = none ∧
      entries.length = sizes.length ∧
      (∀ i : Nat, i < sizes.length → (sizes[i]? = some 0 ↔ entries[i]? = some none)) ∧
      (∀ (i : Nat) (s : Int), sizes[i]? = some s → s ≠ 0 →
        ∃ pool, entries[i]? = some (some pool) ∧
          newPool (w.created.length + ((sizes.take i).filter (· ≠ 0)).length) s opts =
            .ok pool) ∧
      (NewPoolsWithOptions newPool sizes opts w).world.created =
        w.created ++ sizes.filter (· ≠ 0) ∧
      (NewPoolsWithOptions newPool sizes opts w).world.released = w.released ∧
      (sizes = [] → entries = []) := by
  obtain ⟨entries, h1, h2, h3, h4⟩ := foldl_buildStep_shape newPool opts sizes w [] hok
  refine ⟨entries, ?_, ?_, h2, ?_, h4, ?_, ?_, ?_⟩
  · simp [NewPoolsWithOptions, h1]
  · simp [NewPoolsWithOptions, h1]
  · intro i hi
    refine ⟨h3 i, fun he => ?_⟩
    obtain ⟨s, hs⟩ : ∃ s, sizes[i]? = some s := ⟨sizes[i], List.getElem?_eq_getElem hi⟩
    by_cases hz : s = 0
    · rw [hs, hz]
    · obtain ⟨pool, hp, _⟩ := h4 i s hs hz
      rw [hp] at he
      cases he
  · simp [NewPoolsWithOptions, h1]
  · simp [NewPoolsWithOptions, h1]
  · intro he
    subst he
    exact List.length_eq_zero.1 h2

end Shape

/-! ## `Link`, `AsPoolProcess` -/

section LinkFold

variable {T : Type}

theorem foldl_andThen (procs : List (PoolProcess T)) (s : PoolsPtr) (o : Outcome T) :
    procs.foldl (fun val proc => val.andThen (proc s)) o =
      o.andThen (fun t => procs.foldl (fun val proc => val.andThen (proc s)) (.returned t)) := by
  induction procs generalizing o with
  | nil => cases o <;> rfl
  | cons q rest ih =>
      cases o with
      | returned v => rfl
      | panicked e =>
          rw [List.foldl_cons]
          have h : (Outcome.panicked e : Outcome T).andThen (q s) = Outcome.panicked e := rfl
          rw [h, ih]
          rfl
      | aborted e =>
          rw [List.foldl_cons]
          have h : (Outcome.aborted e : Outcome T).andThen (q s) = Outcome.aborted e := rfl
          rw [h, ih]
          rfl
      | blocked =>
          rw [List.foldl_cons]
          have h : (Outcome.blocked : Outcome T).andThen (q s) = Outcome.blocked := rfl
          rw [h, ih]
          rfl

theorem Link_pure (gs : List (PoolsPtr → T → T)) (s : PoolsPtr) (t : T) :
    Link (gs.map pureTask) s t = .returned (gs.foldl (fun v g => g s v) t) := by
  unfold Link
  induction gs generalizing t with
  | nil => rfl
  | cons g rest ih =>
      simp only [List.map_cons, List.foldl_cons, Outcome.andThen, pureTask]
      exact ih (g s t)

/-- C12: `Link` is a left-to-right fold at one depth. `Link()` returns its argument;
`Link(p1..pn, q)(s, t)` is `q(s, ·)` on what `Link(p1..pn)(s, t)` returns, and
`Link(q, p1..pn)(s, t)` is `Link(p1..pn)(s, ·)` on what `q(s, t)` returns (a stage that does
not return ends the call); when the stages return the values of `g1..gn`, the result is
`gn(s, ... g1(s, t))`, every stage with the same stack `s`; `AsPoolProcess(f)(s, t) = f(t)` and
`Link(AsPoolProcesses(f1..fn))(s, t) = fn(... f1(t))` for every stack `s`. -/
theorem Link_fold :
    (∀ (s : PoolsPtr) (t : T), Link ([] : List (PoolProcess T)) s t = .returned t) ∧
    (∀ (procs : List (PoolProcess T)) (q : PoolProcess T) (s : PoolsPtr) (t : T),
      Link (procs ++ [q]) s t = (Link procs s t).andThen (q s)) ∧
    (∀ (q : PoolProcess T) (procs : List (PoolProcess T)) (s : PoolsPtr) (t : T),
      Link (q :: procs) s t = (q s t).andThen (Link procs s)) ∧
    (∀ (gs : List (PoolsPtr → T → T)) (s : PoolsPtr) (t : T),
      Link (gs.map pureTask) s t = .returned (gs.foldl (fun v g => g s v) t)) ∧
    (∀ (f : Process T) (s : PoolsPtr) (t : T), AsPoolProcess f s t = .returned (f t)) ∧
    (∀ (fs : List (Process T)) (s : PoolsPtr) (t : T),
      Link (AsPoolProcesses fs) s t = .returned (fs.foldl (fun v f => f v) t)) := by
  refine ⟨fun _ _ => rfl, ?_, ?_, Link_pure, fun _ _ _ => rfl, ?_⟩
  · intro procs q s t
    simp [Link, List.foldl_append]
  · intro q procs s t
    simp only [Link, List.foldl_cons, Outcome.andThen]
    exact foldl_andThen procs s (q s t)
  · intro fs s t
    unfold Link AsPoolProcesses
    induction fs generalizing t with
    | nil => rfl
    | cons f rest ih =>
        simp only [List.map_cons, List.foldl_cons, Outcome.andThen, AsPoolProcess]
        exact ih (f t)

end LinkFold

/-! ## `Release` and the nil stack -/

section ReleaseNil

theorem Release_some (ps : Pools) (w : World) :
    Release (some ps) w =
      ⟨.returned (), ⟨w.created, w.released ++ ps.pools.filterMap id⟩, some ps⟩ := by
  have h := Release_released ps.pools w
  simp only [Release]
  congr 1
  cases hw : Pools.Release ps w with
  | mk c r =>
      have e : Pools.Release ⟨ps.pools⟩ w = Pools.Release ps w := rfl
      rw [e, hw] at h
      simp only at h
      rw [h.1, h.2]

/-- C13: on the stack built by `NewPoolsWithOptions` when every creation succeeds, `Release`
returns, having called `Release` once on each pool of the stack, in the order of the stack,
and on nothing else: the markers are skipped; these pools are the pools created, in the order
of creation; the stack itself is unchanged. The same holds of every stack that is not nil. -/
theorem Release_covers {Opts : Type} (newPool : NewPoolFn Opts) (opts : Opts) (w : World)
    (sizes : List Int) (after : World)
    (hok : ∀ i, i < (sizes.filter (· ≠ 0)).length →
      ∃ pool, newPool (w.created.length + i) ((sizes.filter (· ≠ 0)).getD i 0) opts =
        .ok pool) :
    (∃ entries : List (Option Pool),
      (NewPoolsWithOptions newPool sizes opts w).pools = some ⟨entries⟩ ∧
      (Release (NewPoolsWithOptions newPool sizes opts w).pools after).outcome =
        .returned () ∧
      (Release (NewPoolsWithOptions newPool sizes opts w).pools after).world.released =
        after.released ++ entries.filterMap id ∧
      entries.filterMap id =
        poolsOfCalls newPool opts w.created.length (sizes.filter (· ≠ 0)) ∧
      (Release (NewPoolsWithOptions newPool sizes opts w).pools after).world.created =
        after.created ∧
      (Release (NewPoolsWithOptions newPool sizes opts w).pools after).receiver =
        some ⟨entries⟩) ∧
    (∀ (ps : Pools) (v : World),
      Release (some ps) v =
        ⟨.returned (), ⟨v.created, v.released ++ ps.pools.filterMap id⟩, some ps⟩) := by
  refine ⟨?_, Release_some⟩
  obtain ⟨entries, h1, h2⟩ := foldl_buildStep_ok newPool opts sizes w [] hok
  have hp : (NewPoolsWithOptions newPool sizes opts w).pools = some ⟨entries⟩ := by
    simp [NewPoolsWithOptions, h1]
  refine ⟨entries, hp, ?_, ?_, h2, ?_, ?_⟩ <;> rw [hp, Release_some]

theorem PipeToSlice_noHead {IN OUT : Type} (dp : PoolsPtr) (h : headPool dp = none)
    (f : PoolsPtr → IN → OUT) (input : List IN) (pick : Sched) :
    PipeToSlice dp input (pureTask f) pick = some (input.map (f (tailOf dp))) := by
  have hu : Usable dp (pureTask f) (f (tailOf dp)) :=
    usable_pureTask dp f (fun pool hp => by rw [h] at hp; cases hp)
  have hser : Serial dp := serial_of_headPool dp (fun pool hp => by rw [h] at hp; cases hp)
  obtain ⟨hrd, _, _, hord⟩ := run_slice input hu pick _ (Nat.le_refl _)
  rw [PipeToSlice_eq dp input _ pick hrd, hord hser]

/-- C14: `submit`, `Pipe` and `Pools()` accept the nil stack and treat it like the empty one
(`submit` runs the task in the caller with the stack it was given, `Pipe` maps the input in
order, `Pools()` is empty), but `Release` on the nil stack panics with a nil dereference and
calls nothing, whereas on the empty stack it returns; so `Release` panics on the stack returned
by a failed `NewPoolsWithOptions`, which is nil. -/
theorem nil_stack_asymmetry :
    (submit none).how = .inline none ∧
    (submit (some ⟨[]⟩)).how = .inline (some ⟨[]⟩) ∧
    (∀ (IN OUT : Type) (f : PoolsPtr → IN → OUT) (input : List IN) (pick : Sched),
      PipeToSlice none input (pureTask f) pick = some (input.map (f none)) ∧
      PipeToSlice (some ⟨[]⟩) input (pureTask f) pick =
        some (input.map (f (some ⟨[]⟩)))) ∧
    Pools.Pools none = [] ∧
    Pools.Pools (some ⟨[]⟩) = [] ∧
    (∀ w : World, Release none w = ⟨.panicked (.err nilDereference), w, none⟩) ∧
    (∀ w : World, Release (some ⟨[]⟩) w = ⟨.returned (), w, some ⟨[]⟩⟩) ∧
    (∀ (Opts : Type) (newPool : NewPoolFn Opts) (sizes : List Int) (opts : Opts)
        (w after : World) (e : GoError),
      (NewPoolsWithOptions newPool sizes opts w).err = some e →
      (NewPoolsWithOptions newPool sizes opts w).pools = none ∧
      Release (NewPoolsWithOptions newPool sizes opts w).pools after =
        ⟨.panicked (.err nilDereference), after, none⟩) := by
  refine ⟨rfl, rfl, ?_, rfl, rfl, fun _ => rfl, fun _ => rfl, ?_⟩
  · intro IN OUT f input pick
    exact ⟨PipeToSlice_noHead none rfl f input pick,
      PipeToSlice_noHead (some ⟨[]⟩) rfl f input pick⟩
  · intro Opts newPool sizes opts w after e he
    have hp : (NewPoolsWithOptions newPool sizes opts w).pools = none := by
      unfold NewPoolsWithOptions at he ⊢
      simp only at he ⊢
      split
      · rfl
      · rename_i hnone
        rw [hnone] at he
        cases he
    exact ⟨hp, by rw [hp]; rfl⟩

end ReleaseNil

section Instances

theorem NewPoolsWithOptions_shape_witness :
    ∃ entries : List (Option Pool),
      (NewPools (alwaysPool : NewPoolFn (List Unit)) [1, 0] ⟨[], []⟩).pools =
        some ⟨entries⟩ ∧
      (NewPools (alwaysPool : NewPoolFn (List Unit)) [1, 0] ⟨[], []⟩).err = none ∧
      entries.length = 2 ∧
      entries[1]? = some none ∧
      entries[0]? = some (some (freshPool 0 1)) := by
  obtain ⟨entries, h1, h2, h3, h4, h5, _⟩ :=
    NewPoolsWithOptions_shape (alwaysPool : NewPoolFn (List Unit)) [] ⟨[], []⟩ [1, 0]
      (fun _ _ => ⟨_, rfl⟩)
  obtain ⟨pool, hp, hpool⟩ := h5 0 1 rfl (by decide)
  refine ⟨entries, h1, h2, h3, (h4 1 (by decide)).1 rfl, ?_⟩
  rw [hp]
  cases hpool
  rfl

theorem Link_fold_witness :
    Link (AsPoolProcesses [doubleInit, copyInit]) none ⟨10, 0⟩ = .returned ⟨20, 20⟩ :=
  Link_fold.2.2.2.2.2 [doubleInit, copyInit] none ⟨10, 0⟩

theorem Release_covers_witness :
    (Release (NewPools (alwaysPool : NewPoolFn (List Unit)) [1, 0, 2] ⟨[], []⟩).pools
      ⟨[1, 2], []⟩).outcome = .returned () ∧
    (Release (NewPools (alwaysPool : NewPoolFn (List Unit)) [1, 0, 2] ⟨[], []⟩).pools
      ⟨[1, 2], []⟩).world.released = [freshPool 0 1, freshPool 1 2] := by
  obtain ⟨⟨entries, _, h2, h3, h4, _⟩, _⟩ :=
    Release_covers (alwaysPool : NewPoolFn (List Unit)) [] ⟨[], []⟩ [1, 0, 2] ⟨[1, 2], []⟩
      (fun _ _ => ⟨_, rfl⟩)
  refine ⟨h2, ?_⟩
  have e : (Release (NewPools (alwaysPool : NewPoolFn (List Unit)) [1, 0, 2] ⟨[], []⟩).pools
      ⟨[1, 2], []⟩).world.released =
      ([] : List Pool) ++ entries.filterMap id := h3
  rw [e, h4]
  rfl

theorem nil_stack_asymmetry_witness :
    Release (NewPoolsWithOptions failSecond [2, 0, 3, 4] () ⟨[], []⟩).pools ⟨[2, 3], []⟩ =
      ⟨.panicked (.err nilDereference), ⟨[2, 3], []⟩, none⟩ :=
  (nil_stack_asymmetry.2.2.2.2.2.2.2 Unit failSecond [2, 0, 3, 4] () ⟨[], []⟩ ⟨[2, 3], []⟩
    (.ants 7) rfl).2

end Instances

end pipe
